import Mathlib

/-!
Verification development for the candidate consolidation and verification
engine of the staged damage-report generator
(`backend/generate_damage_report_staged.py`).

The Python code is shallowly embedded: dict-shaped candidate records become
structures with `Option` fields for optional keys, Python `float` arithmetic
on pixel boxes and confidences is modelled by exact rationals (`ℚ`), Python
`int` by `Int`, and the insertion-ordered dicts used for cluster and superset
maps by association lists.  Python's string primitives (`str.replace`,
`str.strip`, `str.lower`, `str.split`) are re-implemented on `List Char` so
that every definition evaluates by kernel reduction.
-/

namespace DamageReport

set_option maxHeartbeats 1000000

/-- Whitespace set of Python's `str.strip()` / `str.split()`
(space, tab, newline, carriage return, vertical tab, form feed). -/
def pyIsSpace (c : Char) : Bool :=
  c = ' ' || c = '\t' || c = '\n' || c = '\r' || c = '\x0b' || c = '\x0c'

/-- `str.strip()` on a character list: drop whitespace from both ends. -/
def stripChars (l : List Char) : List Char :=
  ((l.dropWhile pyIsSpace).reverse.dropWhile pyIsSpace).reverse

/-- Python `s.strip()`. -/
def pyStrip (s : String) : String := ⟨stripChars s.data⟩

/-- Python `s.lower()` (the vocabulary handled by the code is ASCII). -/
def pyLower (s : String) : String := ⟨s.data.map Char.toLower⟩

/-- `_norm(s)`: `(s or "").strip().lower()`.  Absent dict values are modelled
as `""`, so the `or ""` guard is the identity here. -/
def pyNorm (s : String) : String := pyLower (pyStrip s)

/-- Left-to-right non-overlapping replacement on character lists, the
semantics of Python `str.replace` for a non-empty pattern.  The first
argument counts characters still to skip after a match was emitted, so the
recursion is structural in the subject list. -/
def replaceAux (pat rep : List Char) : Nat → List Char → List Char
  | _ + 1, [] => []
  | skip + 1, _ :: cs => replaceAux pat rep skip cs
  | 0, [] => []
  | 0, c :: cs =>
    if pat.isPrefixOf (c :: cs) then
      rep ++ replaceAux pat rep (pat.length - 1) cs
    else
      c :: replaceAux pat rep 0 cs

/-- Python `s.replace(pat, rep)`.  Every call site in the source uses a
non-empty pattern; for an empty pattern we return `s` unchanged. -/
def pyReplace (s pat rep : String) : String :=
  if pat = "" then s else ⟨replaceAux pat.data rep.data 0 s.data⟩

/-- Word accumulator for `str.split()`: split on whitespace runs, no empty
words. -/
def splitWsAux : List Char → List Char → List String
  | acc, [] => if acc = [] then [] else [⟨acc.reverse⟩]
  | acc, c :: cs =>
    if pyIsSpace c then
      if acc = [] then splitWsAux [] cs else (⟨acc.reverse⟩ : String) :: splitWsAux [] cs
    else
      splitWsAux (c :: acc) cs

/-- Python `s.split()` (no separator argument: split on whitespace runs). -/
def pySplitWs (s : String) : List String := splitWsAux [] s.data

/-- Python `s.lstrip("-*•")` as used on stray string candidates. -/
def pyLstripBullets (s : String) : String :=
  ⟨s.data.dropWhile (fun c => c = '-' || c = '*' || c = '•')⟩

/-- `max` on `Int`, spelled out so that it evaluates by kernel reduction. -/
def imax (a b : Int) : Int := if a ≤ b then b else a

/-- `min` on `Int`, spelled out so that it evaluates by kernel reduction. -/
def imin (a b : Int) : Int := if a ≤ b then a else b

/-- The comparison `a <= b` on exact rationals, computed on numerators and
denominators so that it evaluates by kernel reduction; `rat_le_eq_true_iff`
below identifies it with `a ≤ b`. -/
def rat_le (a b : ℚ) : Bool := decide (a.num * (b.den : Int) ≤ b.num * (a.den : Int))

/-- Python string comparison `<` (lexicographic by code point), computed
character by character so that it evaluates by kernel reduction;
`str_lt_eq_true_iff` below identifies it with `<` on `String`. -/
def chars_lt : List Char → List Char → Bool
  | _, [] => false
  | [], _ :: _ => true
  | a :: as, b :: bs => if a < b then true else if b < a then false else chars_lt as bs

def str_lt (a b : String) : Bool := chars_lt a.data b.data

/-! ## Data model

A candidate detection is a JSON dict.  The keys the engine reads are modelled
as fields; keys that may be absent are `Option`s.  A bounding box (`bbox_px`)
is kept in corner form `[x1, y1, x2, y2]`; the dict form `(x, y, w, h)` read
via `.values()` in `iou` converts to the same corners. -/

structure Box where
  x1 : Int
  y1 : Int
  x2 : Int
  y2 : Int
  deriving DecidableEq, Repr

structure Part where
  name : String
  location : String
  category : String
  severity : Option String
  description : Option String
  damage_description : Option String
  bbox_px : Option Box
  image : Option String
  deriving DecidableEq, Repr

/-- One verification pass record `{"present": .., "confidence": ..}` (the
sampling temperature also stored there is an oracle parameter and carries no
information used by the engine, so it is not modelled). -/
structure VPass where
  present : Bool
  confidence : ℚ
  deriving DecidableEq, Repr

/-- The `evidence` dict built by `verify_one` (minus the image-name list,
which is presentation data). -/
structure Evidence where
  passes : List VPass
  threshold : ℚ
  votes_yes : Nat
  consensus_required : Int
  deriving DecidableEq, Repr

/-- A candidate record as it travels through the pipeline: the underlying
part dict plus the bookkeeping keys the engine may add
(`_votes`, `_potential_reason`, `_verify`), each `none` while absent. -/
structure PRec where
  part : Part
  votes : Option Nat
  potential_reason : Option String
  verify : Option Evidence
  deriving DecidableEq, Repr

/-- Canonical identity key `_key_for_part`: `(norm(name), norm(location))`. -/
def key_for_part (p : Part) : String × String := (pyNorm p.name, pyNorm p.location)

def key_for_rec (r : PRec) : String × String := key_for_part r.part

/-! ## Canonicalization (`_canon_severity`, `_canon_location`, `_canon_name`,
`_canon_category`, `canonicalize_part`) -/

/-- `_canon_severity`: synonym collapse with default `minor`.  The Python
fallback `s if s in ("minor","moderate","severe") else "minor"` is reachable
only for strings outside the mapping table, hence equals `"minor"` there. -/
def canon_severity (s : String) : String :=
  let t := pyNorm s
  if t = "low" ∨ t = "minor" ∨ t = "slight" ∨ t = "light" then "minor"
  else if t = "medium" ∨ t = "moderate" then "moderate"
  else if t = "high" ∨ t = "severe" ∨ t = "major" ∨ t = "extreme" then "severe"
  else "minor"

/-- The replacement table of `_canon_name` (`repl` then `extra`), applied by
sequential `str.replace`; the `if a in t` guards in the source are redundant
because `replace` is the identity when the pattern is absent. -/
def canon_name_table : List (String × String) :=
  [("bonnet", "hood"), ("boot", "trunk"), ("windscreen", "windshield"),
   ("wing", "fender"), ("grill", "grille"), ("headlamp", "headlight"),
   ("tail lamp", "tail light"), ("taillamp", "tail light"),
   ("number plate", "license plate"), ("license-plate", "license plate"),
   ("foglamp", "fog light"), ("quarterpanel", "quarter panel"),
   ("licence", "license"),
   ("number-plate", "license plate"),
   ("numberplate", "license plate"),
   ("grillee", "grille")]

/-- `_canon_name`. -/
def canon_name (s : String) : String :=
  canon_name_table.foldl (fun t ab => pyReplace t ab.1 ab.2) (pyNorm s)

/-- The side/end synonym replacements of `_canon_location`, in source order. -/
def canon_location_table : List (String × String) :=
  [("driver side", "left"), ("passenger side", "right"),
   ("near side", "left"), ("nearside", "left"),
   ("off side", "right"), ("offside", "right"),
   ("front end", "front"), ("rear end", "rear"), ("back", "rear")]

/-- `_canon_location`: normalize, replace synonyms, then re-compose an
ordered token sequence from `{front, rear, left, right}` found in the
location or inferred from the (already canonical) name. -/
def canon_location (s : String) (name : String) : String :=
  let t := canon_location_table.foldl (fun t ab => pyReplace t ab.1 ab.2)
    (pyReplace (pyNorm s) "-" " ")
  let flags := pySplitWs t
  let nameFlags :=
    if name = "" then []
    else (pySplitWs (pyReplace (pyNorm name) "-" " ")).filter
      (fun w => w = "front" ∨ w = "rear" ∨ w = "left" ∨ w = "right")
  let allFlags := flags ++ nameFlags
  let composed := String.intercalate " "
    (["front", "rear", "left", "right"].filter (fun w => w ∈ allFlags))
  if composed = "" then t else composed

def canon_category (s : String) : String := pyNorm s

/-- `canonicalize_part`: the location pass receives the already-canonicalized
name (the source assigns `q["name"]` before reading it back). -/
def canonicalize_part (p : Part) : Part :=
  let n := canon_name p.name
  { p with
    name := n
    location := canon_location p.location n
    category := canon_category p.category
    severity := p.severity.map canon_severity }

def canonicalize_rec (r : PRec) : PRec := { r with part := canonicalize_part r.part }

/-! ## Representative selection (`_prefer_part`, `union_parts._upgrade`) -/

/-- `p.get("description", p.get("damage_description", ""))`. -/
def desc_of (p : Part) : String := p.description.getD (p.damage_description.getD "")

/-- `SEVERITY_PRIORITY_GLOBAL.get(p.get("severity", "minor"), 1)`: an absent
severity reads as `minor`, and any string other than `severe`/`moderate`
falls to the default rank 1. -/
def sev_rank (p : Part) : Nat :=
  match p.severity with
  | none => 1
  | some s => if s = "severe" then 3 else if s = "moderate" then 2 else 1

/-- Python tuple comparison `<` on the normalized `(name, location,
description)` triple (lexicographic). -/
def triple_lt (a b : String × String × String) : Bool :=
  str_lt a.1 b.1 ||
    (a.1 == b.1 && (str_lt a.2.1 b.2.1 ||
      (a.2.1 == b.2.1 && str_lt a.2.2 b.2.2)))

def norm_triple (p : Part) : String × String × String :=
  (pyNorm p.name, pyNorm p.location, pyNorm (desc_of p))

/-- `_prefer_part(new, base)`: higher severity rank wins, then longer
description, then the lexicographically smaller normalized triple; on a full
tie the base is kept.  `base = none` models the falsy empty dict. -/
def prefer_part (n : PRec) (base : Option PRec) : PRec :=
  match base with
  | none => n
  | some b =>
    let ns := sev_rank n.part
    let bs := sev_rank b.part
    let nd := desc_of n.part
    let bd := desc_of b.part
    if ns > bs then n
    else if ns < bs then b
    else if nd.length > bd.length then n
    else if nd.length < bd.length then b
    else if triple_lt (norm_triple n.part) (norm_triple b.part) then n else b

/-- Truthiness of an optional string dict value (`not cand.get("image")`). -/
def opt_str_falsy (o : Option String) : Bool :=
  match o with
  | none => true
  | some s => s = ""

/-- The `choose` flag of `union_parts._upgrade`: does the candidate beat the
existing representative? -/
def upgrade_choose (base cand : PRec) : Bool :=
  if sev_rank cand.part > sev_rank base.part then true
  else if sev_rank cand.part = sev_rank base.part ∧
      (desc_of cand.part).length > (desc_of base.part).length then true
  else if sev_rank cand.part = sev_rank base.part ∧
      (desc_of cand.part).length = (desc_of base.part).length then
    triple_lt (norm_triple cand.part) (norm_triple base.part)
  else false

/-- `union_parts._upgrade(base, cand)`: same preference chain; when the
candidate wins it additionally inherits `image`/`bbox_px` from the base
where it lacks them. -/
def upgrade (base cand : PRec) : PRec :=
  if upgrade_choose base cand then
    { cand with part := { cand.part with
        image :=
          if opt_str_falsy cand.part.image ∧ ¬ opt_str_falsy base.part.image then
            base.part.image
          else cand.part.image
        bbox_px :=
          if cand.part.bbox_px.isNone ∧ base.part.bbox_px.isSome then
            base.part.bbox_px
          else cand.part.bbox_px } }
  else base

/-! ## IoU and cross-run clustering (`iou`, `union_parts`) -/

/-- The integer intersection area of two pixel boxes
(`inter_w * inter_h` with both factors clamped at 0). -/
def inter_area (box_a box_b : Box) : Int :=
  imax 0 (imin box_a.x2 box_b.x2 - imax box_a.x1 box_b.x1) *
    imax 0 (imin box_a.y2 box_b.y2 - imax box_a.y1 box_b.y1)

/-- The integer union area `wa*ha + wb*hb - inter_area`. -/
def union_area (box_a box_b : Box) : Int :=
  (box_a.x2 - box_a.x1) * (box_a.y2 - box_a.y1) +
    (box_b.x2 - box_b.x1) * (box_b.y2 - box_b.y1) - inter_area box_a box_b

/-- `iou(box_a, box_b)` on corner-form pixel boxes, with the
`union_area == 0` guard returning `0.0`.  Pixel coordinates are integers, so
the float quotient is the exact rational `inter / union`. -/
def iou (box_a box_b : Box) : ℚ :=
  if union_area box_a box_b = 0 then 0
  else (inter_area box_a box_b : ℚ) / (union_area box_a box_b : ℚ)

/-- The comparison `iou(cb, cand_bbox) >= CLUSTER_IOU_THRESH` computed on
integers (cross-multiplied, with the sign of the union area handled), so
that clustering evaluates by kernel reduction; `iou_ge_eq_true_iff` below
identifies it with `iou cb b ≥ th`. -/
def iou_ge (box_a box_b : Box) (th : ℚ) : Bool :=
  let inter := inter_area box_a box_b
  let uni := union_area box_a box_b
  if uni = 0 then decide (th.num ≤ 0)
  else if 0 < uni then decide (th.num * uni ≤ inter * (th.den : Int))
  else decide (inter * (th.den : Int) ≤ th.num * uni)

abbrev Key := String × String

/-- A cluster dict `{"rep": .., "runs": set, "bbox_px": .., "n": ..}`.  The
run-index set is a duplicate-free list (insertion happens only under a
membership guard, which the invariant theorems establish). -/
structure Cluster where
  rep : PRec
  runs : List Nat
  bbox_px : Option Box
  n : Nat
  deriving DecidableEq, Repr

/-- The `cand_bbox is None` arm of `_match_cluster`: first cluster without a
box. -/
def match_cluster_nobox : List Cluster → Option Cluster
  | [] => none
  | cl :: rest => if cl.bbox_px = none then some cl else match_cluster_nobox rest

/-- The boxed arm of `_match_cluster`: first cluster whose box reaches the
IoU threshold, skipping boxless clusters. -/
def match_cluster_box (th : ℚ) (b : Box) : List Cluster → Option Cluster
  | [] => none
  | cl :: rest =>
    match cl.bbox_px with
    | none => match_cluster_box th b rest
    | some cb => if iou_ge cb b th then some cl else match_cluster_box th b rest

/-- `_match_cluster(clusters, cand_bbox)`. -/
def match_cluster (th : ℚ) (clusters : List Cluster) (cand_bbox : Option Box) :
    Option Cluster :=
  match cand_bbox with
  | none => match_cluster_nobox clusters
  | some b => match_cluster_box th b clusters

/-- The matching condition of `_match_cluster` as a per-cluster predicate
(used to locate the first matching position for the in-place mutation). -/
def cl_is_match (th : ℚ) (cand_bbox : Option Box) (cl : Cluster) : Bool :=
  match cand_bbox, cl.bbox_px with
  | none, none => true
  | none, some _ => false
  | some _, none => false
  | some b, some cb => iou_ge cb b th

/-- Replace the first element satisfying `p` by its `f`-image (the model of
mutating the object `_match_cluster` returned). -/
def update_first (p : α → Bool) (f : α → α) : List α → List α
  | [] => []
  | x :: xs => if p x then f x :: xs else x :: update_first p f xs

def new_cluster (rid : Nat) (cand : PRec) : Cluster :=
  ⟨cand, [rid], cand.part.bbox_px, 1⟩

/-- The matched-cluster mutation: representative upgrade, guarded run-index
insertion, `n + 1`; the cluster's own box is never changed. -/
def join_cluster (rid : Nat) (cand : PRec) (cl : Cluster) : Cluster :=
  { rep := upgrade cl.rep cand
    runs := if rid ∈ cl.runs then cl.runs else cl.runs ++ [rid]
    bbox_px := cl.bbox_px
    n := cl.n + 1 }

/-- Process one candidate against the cluster list of its key. -/
def step_clusters (th : ℚ) (rid : Nat) (cand : PRec) (clusters : List Cluster) :
    List Cluster :=
  match match_cluster th clusters cand.part.bbox_px with
  | none => clusters ++ [new_cluster rid cand]
  | some _ => update_first (cl_is_match th cand.part.bbox_px) (join_cluster rid cand) clusters

/-- `clusters_by_key`: an insertion-ordered dict. -/
abbrev ClusterMap := List (Key × List Cluster)

def has_key (st : ClusterMap) (k : Key) : Bool := st.any (fun kv => kv.1 == k)

def upd_assoc (k : Key) (f : List Cluster → List Cluster) : ClusterMap → ClusterMap
  | [] => []
  | kv :: rest => if kv.1 = k then (kv.1, f kv.2) :: rest else kv :: upd_assoc k f rest

/-- `clusters_by_key.setdefault(key, [])` followed by the match/append step. -/
def add_candidate (th : ℚ) (rid : Nat) (st : ClusterMap) (cand : PRec) : ClusterMap :=
  let key := key_for_rec cand
  if has_key st key then upd_assoc key (step_clusters th rid cand) st
  else st ++ [(key, step_clusters th rid cand [])]

/-- A raw candidate as it appears in a run's `damaged_parts`: a dict or a
stray bullet string. -/
inductive RawItem where
  | part (p : Part)
  | str (s : String)
  deriving DecidableEq, Repr

/-- `union_parts.sanitize_parts`. -/
def sanitize_parts (items : List RawItem) : List PRec :=
  items.filterMap fun it =>
    match it with
    | .part p => some ⟨canonicalize_part p, none, none, none⟩
    | .str s =>
      let nm := pyStrip (pyLstripBullets (pyStrip s))
      if nm = "" then none
      else some ⟨canonicalize_part ⟨nm, "", "", some "minor", none, some "", none, none⟩,
        none, none, none⟩

structure VehicleInfo where
  make : Option String
  model : Option String
  year : Option Int
  deriving DecidableEq, Repr

/-- One completed detection run's output. -/
structure Run where
  vehicle : VehicleInfo
  damaged_parts : List RawItem
  deriving DecidableEq, Repr

structure Vehicle where
  make : String
  model : String
  year : Int
  deriving DecidableEq, Repr

/-- Vehicle merge: per field, the first run with a value outside
`(None, "", "Unknown", 0)`. -/
def merge_vehicle (runs : List Run) : Vehicle :=
  { make := (runs.findSome? (fun r => r.vehicle.make.bind
      (fun v => if v = "" ∨ v = "Unknown" then none else some v))).getD "Unknown"
    model := (runs.findSome? (fun r => r.vehicle.model.bind
      (fun v => if v = "" ∨ v = "Unknown" then none else some v))).getD "Unknown"
    year := (runs.findSome? (fun r => r.vehicle.year.bind
      (fun y => if y = 0 then none else some y))).getD 0 }

/-- The doubly nested loop `for rid, run in enumerate(runs): for cand in
sanitize_parts(...)`. -/
def build_clusters (th : ℚ) (runs : List Run) : ClusterMap :=
  runs.enum.foldl
    (fun st rr => (sanitize_parts rr.2.damaged_parts).foldl
      (fun st' c => add_candidate th rr.1 st' c) st)
    []

/-- Flatten clusters to parts, attaching `_votes = len(cl["runs"])`. -/
def raw_parts (th : ℚ) (runs : List Run) : List PRec :=
  (build_clusters th runs).flatMap
    (fun kc => kc.2.map (fun cl => { cl.rep with votes := some cl.runs.length }))

/-! ## Vote filter and dual-track output -/

/-- The environment-derived configuration knobs the engine reads
(`CLUSTER_IOU_THRESH`, `MIN_VOTES_*`, `COMPREHENSIVE_MODE`,
`VERIFY_CONF_*`, `VERIFY_REQUIRE_PASSES_*`). -/
structure Config where
  clusterIouThresh : ℚ
  minVotesPerPart : Int
  minVotesSevere : Int
  minVotesModerate : Int
  minVotesMinor : Int
  comprehensiveMode : Bool
  verifyConfSevere : ℚ
  verifyConfModerate : ℚ
  verifyConfMinor : ℚ
  verifyRequireSevere : Int
  verifyRequireModerate : Int
  verifyRequireMinor : Int
  deriving DecidableEq, Repr

/-- `(p.get("severity") or "minor").strip().lower()`: an absent or empty
severity is read as `minor`. -/
def sev_str (p : Part) : String :=
  pyLower (pyStrip (match p.severity with
    | none => "minor"
    | some s => if s = "" then "minor" else s))

/-- The severity-specific configured vote threshold (before the source's
`max(1, ·)` clamp); the spec's `T_severe` / `T_moderate` / `T_minor`. -/
def sev_vote_threshold (cfg : Config) (r : PRec) : Int :=
  let s := sev_str r.part
  if s = "severe" then cfg.minVotesSevere
  else if s = "moderate" then cfg.minVotesModerate
  else cfg.minVotesMinor

/-- `union_parts._thr(p)`: the per-severity threshold clamped to at least 1,
exactly as in the source. -/
def vote_thr (cfg : Config) (r : PRec) : Int :=
  let s := sev_str r.part
  if s = "severe" then max 1 cfg.minVotesSevere
  else if s = "moderate" then max 1 cfg.minVotesModerate
  else max 1 cfg.minVotesMinor

/-- The vote filter: `int(p.get("_votes", 0)) >= max(MIN_VOTES_PER_PART,
_thr(p))`. -/
def vote_keep (cfg : Config) (r : PRec) : Bool :=
  decide ((r.votes.getD 0 : Int) ≥ max cfg.minVotesPerPart (vote_thr cfg r))

def filtered_parts (cfg : Config) (runs : List Run) : List PRec :=
  (raw_parts cfg.clusterIouThresh runs).filter (vote_keep cfg)

/-- The comprehensive-mode loop collecting vote-filtered candidates: skip a
candidate whose key is already confirmed (`def_keys`) or already collected
(`seen_pot`), otherwise keep it with `_potential_reason` defaulted to
`insufficient_votes`. -/
def pot_aux (def_keys : List Key) : List Key → List PRec → List PRec
  | _, [] => []
  | seen, rp :: rest =>
    let k := key_for_rec rp
    if k ∈ def_keys ∨ k ∈ seen then pot_aux def_keys seen rest
    else { rp with potential_reason := some (rp.potential_reason.getD "insufficient_votes") }
      :: pot_aux def_keys (k :: seen) rest

def potential_from_votes (cfg : Config) (runs : List Run) : List PRec :=
  if cfg.comprehensiveMode then
    pot_aux ((filtered_parts cfg runs).map key_for_rec) [] (raw_parts cfg.clusterIouThresh runs)
  else []

/-- Stable insertion sort: Python's `list.sort` is stable, and an element is
inserted before the first already-placed element it compares `≤` to, which
preserves the original order of equal keys. -/
def insert_le (le : α → α → Bool) (x : α) : List α → List α
  | [] => [x]
  | y :: ys => if le x y then x :: y :: ys else y :: insert_le le x ys

def sort_stable (le : α → α → Bool) : List α → List α
  | [] => []
  | x :: xs => insert_le le x (sort_stable le xs)

/-- The sort key `(-votes, -severity_priority, norm(name), norm(location))`
of the final `parts.sort`, as a `≤` comparison. -/
def union_le (a b : PRec) : Bool :=
  let va := a.votes.getD 0
  let vb := b.votes.getD 0
  if va ≠ vb then decide (vb < va)
  else
    let sa := sev_rank a.part
    let sb := sev_rank b.part
    if sa ≠ sb then decide (sb < sa)
    else
      let na := pyNorm a.part.name
      let nb := pyNorm b.part.name
      if na ≠ nb then str_lt na nb
      else str_lt (pyNorm a.part.location) (pyNorm b.part.location)
        || pyNorm a.part.location == pyNorm b.part.location

/-- The dict `union_parts` returns: `potential_parts` is present (`some`)
only when comprehensive mode is active and the potential list is
non-empty. -/
structure UnionOut where
  vehicle : Vehicle
  damaged_parts : List PRec
  potential_parts : Option (List PRec)
  deriving DecidableEq, Repr

/-- `union_parts(runs)`. -/
def union_parts (cfg : Config) (runs : List Run) : UnionOut :=
  if runs = [] then ⟨⟨"Unknown", "Unknown", 0⟩, [], none⟩
  else
    let pot := potential_from_votes cfg runs
    { vehicle := merge_vehicle runs
      damaged_parts := sort_stable union_le (filtered_parts cfg runs)
      potential_parts :=
        if cfg.comprehensiveMode ∧ pot ≠ [] then some pot else none }

/-! ## Persistent superset (`_load_superset`, `_save_superset` and the
accumulation loops in `main`) -/

/-- One value of the in-memory superset map: `{"count": .., "part": ..}`;
the initial empty-dict part is `none`. -/
structure SEntry where
  count : Int
  part : Option PRec
  deriving DecidableEq, Repr

/-- The in-memory superset map, an insertion-ordered dict keyed by the
canonical `(name, location)` key. -/
abbrev SMap := List (Key × SEntry)

def lookup_entry (m : SMap) (k : Key) : Option SEntry :=
  (m.find? (fun kv => kv.1 == k)).map (·.2)

/-- Write a value under a key: in place for an existing key (dict update
keeps the position), appended for a fresh one. -/
def set_entry (m : SMap) (k : Key) (e : SEntry) : SMap :=
  if (m.find? (fun kv => kv.1 == k)).isSome then
    m.map (fun kv => if kv.1 = k then (kv.1, e) else kv)
  else m ++ [(k, e)]

/-- The per-part body of the accumulation loop (lines 1277-1283 of the
source): upsert under `_key_for_part(part)`, choosing the better
representation and incrementing the count. -/
def accumulate_part (m : SMap) (r : PRec) : SMap :=
  let k := key_for_rec r
  let prev := lookup_entry m k
  set_entry m k
    { count := (prev.map (·.count)).getD 0 + 1
      part := some (prefer_part r (prev.bind (·.part))) }

def accumulate_parts (m : SMap) (rs : List PRec) : SMap :=
  rs.foldl accumulate_part m

/-- The final persist merge (lines 1674-1678): upsert the representation
without touching the count. -/
def merge_final_part (m : SMap) (r : PRec) : SMap :=
  let k := key_for_rec r
  let prev := lookup_entry m k
  set_entry m k
    { count := (prev.map (·.count)).getD 0
      part := some (prefer_part r (prev.bind (·.part))) }

def merge_final (m : SMap) (rs : List PRec) : SMap :=
  rs.foldl merge_final_part m

/-- The sort key `(-count, -severity, name)` of the accumulated output. -/
def superset_le (a b : Key × SEntry) : Bool :=
  if a.2.count ≠ b.2.count then decide (b.2.count < a.2.count)
  else
    let sa := ((a.2.part.map (fun r => sev_rank r.part)).getD 1)
    let sb := ((b.2.part.map (fun r => sev_rank r.part)).getD 1)
    if sa ≠ sb then decide (sb < sa)
    else str_lt a.1.1 b.1.1 || a.1.1 == b.1.1

/-- The accumulated output list (lines 1285-1292): entries with
`count >= max(1, PERSIST_MIN_SUPPORT)`, deterministically sorted. -/
def superset_output (minSupport : Int) (m : SMap) : List (Key × SEntry) :=
  sort_stable superset_le (m.filter (fun kv => decide (kv.2.count ≥ max 1 minSupport)))

def superset_output_keys (minSupport : Int) (m : SMap) : List Key :=
  (superset_output minSupport m).map (·.1)

/-- One element of the persisted `"parts"` array. -/
structure SavedItem where
  name : String
  location : String
  category : String
  count : Int
  part : Option PRec
  deriving DecidableEq, Repr

/-- `_save_superset` (the `fingerprint`/`run_count` envelope fields are
carried separately by the caller). -/
def save_superset (m : SMap) : List SavedItem :=
  m.map (fun kv =>
    { name := kv.1.1
      location := kv.1.2
      category := pyNorm ((kv.2.part.map (fun r => r.part.category)).getD "")
      count := kv.2.count
      part := kv.2.part })

/-- One step of `_load_superset`: take the stored part (or rebuild a bare
one from the item's fields), re-canonicalize it, and merge it under its
canonical key, summing counts. -/
def load_item (m : SMap) (item : SavedItem) : SMap :=
  let stored : PRec :=
    match item.part with
    | some r => r
    | none => ⟨⟨item.name, item.location, item.category, none, none, none, none, none⟩,
        none, none, none⟩
  let cpart := canonicalize_rec stored
  let k := key_for_rec cpart
  let prev := lookup_entry m k
  set_entry m k
    { count := (prev.map (·.count)).getD 0 + item.count
      part := some (prefer_part cpart (prev.bind (·.part))) }

def load_superset (items : List SavedItem) : SMap :=
  items.foldl load_item []

/-! ## Image-set fingerprint (`_fingerprint_images`) -/

/-- An input image file: the fingerprint hashes only `p.name` and
`p.stat().st_size`; `content` stands for the pixel data, which is never
read. -/
structure ImgFile where
  name : String
  size : Int
  content : List Nat
  deriving DecidableEq, Repr

def img_name_le (a b : ImgFile) : Bool := str_lt a.name b.name || a.name == b.name

/-- The exact byte stream fed to SHA-256 by `_fingerprint_images`:
`name + str(size)` per image, in `sorted(images, key=lambda x: x.name)`
order.  SHA-256 itself is a fixed deterministic function, so every equality
or inequality of fingerprints proved here is stated on this pre-hash
stream: equal streams give equal digests. -/
def fingerprint_stream (imgs : List ImgFile) : String :=
  (sort_stable img_name_le imgs).foldl (fun acc p => acc ++ p.name ++ toString p.size) ""

/-! ## Verification stage (`verify_one` and the comprehensive-mode
demotion in `main`) -/

/-- What one verification oracle call can produce: a parsed
`{present, confidence}` payload, or an error/timeout. -/
inductive PassOutcome where
  | ok (present : Bool) (confidence : ℚ)
  | err
  deriving DecidableEq, Repr

/-- Fails closed: the exception handler appends
`{"present": False, "confidence": 0.0}`. -/
def pass_of : PassOutcome → VPass
  | .ok pr c => ⟨pr, c⟩
  | .err => ⟨false, 0⟩

/-- `verify_one._sev_thr`. -/
def verify_thr (cfg : Config) (r : PRec) : ℚ :=
  let s := sev_str r.part
  if s = "severe" then cfg.verifyConfSevere
  else if s = "moderate" then cfg.verifyConfModerate
  else cfg.verifyConfMinor

/-- `verify_one._consensus_required`. -/
def consensus_req (cfg : Config) (r : PRec) : Int :=
  let s := sev_str r.part
  if s = "severe" then max 1 cfg.verifyRequireSevere
  else if s = "moderate" then max 1 cfg.verifyRequireModerate
  else max 1 cfg.verifyRequireMinor

/-- `votes_yes = sum(1 for r in passes if r["present"] and r["confidence"] >= thr)`. -/
def votes_yes (thr : ℚ) (passes : List VPass) : Nat :=
  (passes.filter (fun r => r.present && rat_le thr r.confidence)).length

/-- `max((r["confidence"] for r in passes), default=0.0)`. -/
def max_conf (passes : List VPass) : ℚ :=
  match passes.map (·.confidence) with
  | [] => 0
  | c :: cs => cs.foldl max c

/-- The decision core of `verify_one`, given the outcome of each oracle
call (the source always performs exactly two): returns
`(kept, best_conf, evidence)`. -/
def verify_one (cfg : Config) (r : PRec) (outcomes : List PassOutcome) :
    Bool × ℚ × Evidence :=
  let passes := outcomes.map pass_of
  let thr := verify_thr cfg r
  let vy := votes_yes thr passes
  let req := consensus_req cfg r
  (decide ((vy : Int) ≥ req), max_conf passes,
    { passes := passes, threshold := thr, votes_yes := vy, consensus_required := req })

/-- The kept/dropped split of the verification loop; task completion order
(the thread pool's `as_completed`) is not modelled, results are collected
in submission order. -/
def verif_split (cfg : Config) (oracle : PRec → List PassOutcome) :
    List PRec → List PRec × List (PRec × ℚ × Evidence)
  | [] => ([], [])
  | p :: rest =>
    if (verify_one cfg p (oracle p)).1 then
      ({ p with verify := some (verify_one cfg p (oracle p)).2.2 } ::
        (verif_split cfg oracle rest).1, (verif_split cfg oracle rest).2)
    else
      ((verif_split cfg oracle rest).1,
        (p, (verify_one cfg p (oracle p)).2.1, (verify_one cfg p (oracle p)).2.2) ::
          (verif_split cfg oracle rest).2)

/-- Python dict de-duplication `uniq[_k(pp)] = pp; list(uniq.values())`:
keys in order of first appearance, each carrying the last value written. -/
def dedup_last_by_key (l : List PRec) : List PRec :=
  ((l.map key_for_rec).dedup).filterMap
    (fun k => (l.filter (fun r => key_for_rec r = k)).getLast?)

/-- The demoted form of one verification-dropped part: evidence attached,
`_potential_reason` defaulted to `verification_failed`. -/
def demote_process (t : PRec × ℚ × Evidence) : PRec :=
  { t.1 with
    verify := some t.2.2
    potential_reason := some (t.1.potential_reason.getD "verification_failed") }

/-- The comprehensive-mode demotion (lines 1531-1558): keep existing
potential entries whose key was not verified, append verification-dropped
parts (with evidence and reason defaulted to `verification_failed`) unless
their key was kept, then de-duplicate by key. -/
def demote (kept : List PRec) (dropped : List (PRec × ℚ × Evidence))
    (existing : List PRec) : List PRec :=
  dedup_last_by_key
    (existing.filter (fun pp => decide (key_for_rec pp ∉ kept.map key_for_rec)) ++
      (dropped.filter (fun t => decide (key_for_rec t.1 ∉ kept.map key_for_rec))).map
        demote_process)

/-- The verification phase applied to the detected list: new damaged parts
and the (possibly rewritten) potential list. -/
def verification_stage (cfg : Config) (oracle : PRec → List PassOutcome)
    (parts : List PRec) (existingPot : Option (List PRec)) :
    List PRec × Option (List PRec) :=
  ((verif_split cfg oracle parts).1,
    if cfg.comprehensiveMode then
      some (demote (verif_split cfg oracle parts).1 (verif_split cfg oracle parts).2
        (existingPot.getD []))
    else existingPot)

/-! ## Bridging lemmas for the executable comparisons -/

lemma rat_le_eq_true_iff (a b : ℚ) : rat_le a b = true ↔ a ≤ b := by
  rw [rat_le, decide_eq_true_eq]
  have ha : (0 : ℚ) < (a.den : ℚ) := by exact_mod_cast a.den_pos
  have hb : (0 : ℚ) < (b.den : ℚ) := by exact_mod_cast b.den_pos
  constructor
  · intro h
    have h2 : (a.num : ℚ) * (b.den : ℚ) ≤ (b.num : ℚ) * (a.den : ℚ) := by exact_mod_cast h
    calc a = (a.num : ℚ) / (a.den : ℚ) := (Rat.num_div_den a).symm
    _ ≤ (b.num : ℚ) / (b.den : ℚ) := by rw [div_le_div_iff₀ ha hb]; exact h2
    _ = b := Rat.num_div_den b
  · intro h
    have h2 : (a.num : ℚ) / (a.den : ℚ) ≤ (b.num : ℚ) / (b.den : ℚ) := by
      rw [Rat.num_div_den a, Rat.num_div_den b]; exact h
    rw [div_le_div_iff₀ ha hb] at h2
    exact_mod_cast h2

lemma iou_ge_eq_true_iff (box_a box_b : Box) (th : ℚ) :
    iou_ge box_a box_b th = true ↔ th ≤ iou box_a box_b := by
  unfold iou_ge iou
  have hden : (0 : ℚ) < (th.den : ℚ) := by exact_mod_cast th.den_pos
  by_cases h0 : union_area box_a box_b = 0
  · simp only [h0, if_pos, if_true, decide_eq_true_eq]
    simp [Rat.num_nonpos]
  · by_cases h1 : 0 < union_area box_a box_b
    · have huni : (0 : ℚ) < (union_area box_a box_b : ℚ) := by exact_mod_cast h1
      simp only [h0, h1, if_false, if_true, if_neg, not_false_iff, decide_eq_true_eq]
      constructor
      · intro h
        calc th = (th.num : ℚ) / (th.den : ℚ) := (Rat.num_div_den th).symm
        _ ≤ (inter_area box_a box_b : ℚ) / (union_area box_a box_b : ℚ) := by
            rw [div_le_div_iff₀ hden huni]; exact_mod_cast h
      · intro h
        have h2 : (th.num : ℚ) / (th.den : ℚ) ≤
            (inter_area box_a box_b : ℚ) / (union_area box_a box_b : ℚ) := by
          rw [Rat.num_div_den th]; exact h
        rw [div_le_div_iff₀ hden huni] at h2
        exact_mod_cast h2
    · have h2 : union_area box_a box_b < 0 := lt_of_le_of_ne (not_lt.mp h1) h0
      have hnegu : (0 : ℚ) < ((- union_area box_a box_b : Int) : ℚ) := by
        exact_mod_cast Int.neg_pos.mpr h2
      have hrw : (inter_area box_a box_b : ℚ) / (union_area box_a box_b : ℚ) =
          ((- inter_area box_a box_b : Int) : ℚ) / ((- union_area box_a box_b : Int) : ℚ) := by
        push_cast
        rw [neg_div_neg_eq]
      simp only [h0, h1, if_false, if_neg, not_false_iff, decide_eq_true_eq]
      rw [hrw]
      constructor
      · intro h
        calc th = (th.num : ℚ) / (th.den : ℚ) := (Rat.num_div_den th).symm
        _ ≤ _ := by
            rw [div_le_div_iff₀ hden hnegu]
            have h3 : th.num * (- union_area box_a box_b) ≤
                (- inter_area box_a box_b) * (th.den : Int) := by nlinarith
            exact_mod_cast h3
      · intro h
        have h4 : (th.num : ℚ) / (th.den : ℚ) ≤
            ((- inter_area box_a box_b : Int) : ℚ) / ((- union_area box_a box_b : Int) : ℚ) := by
          rw [Rat.num_div_den th]; exact h
        rw [div_le_div_iff₀ hden hnegu] at h4
        have h5 : th.num * (- union_area box_a box_b) ≤
            (- inter_area box_a box_b) * (th.den : Int) := by exact_mod_cast h4
        nlinarith

lemma chars_lt_eq_true_iff (as bs : List Char) : chars_lt as bs = true ↔ as < bs := by
  induction as generalizing bs with
  | nil =>
    cases bs with
    | nil =>
      simp only [chars_lt]
      constructor
      · intro h; cases h
      · intro h; nomatch h
    | cons b bs =>
      simp only [chars_lt, true_iff]
      exact .nil
  | cons a as ih =>
    cases bs with
    | nil =>
      simp only [chars_lt]
      constructor
      · intro h; cases h
      · intro h; nomatch h
    | cons b bs =>
      simp only [chars_lt]
      by_cases h1 : a < b
      · simp only [h1, if_pos, true_iff]
        exact .rel h1
      · by_cases h2 : b < a
        · simp only [h1, h2, if_neg, not_false_iff, if_pos]
          constructor
          · intro h; cases h
          · intro h
            cases h with
            | rel h3 => exact absurd h3 h1
            | cons h3 => exact absurd h2 (lt_irrefl a)
        · have heq : a = b := le_antisymm (not_lt.mp h2) (not_lt.mp h1)
          subst heq
          simp only [h1, h2, if_neg, not_false_iff]
          rw [ih]
          constructor
          · intro h3; exact .cons h3
          · intro h
            cases h with
            | rel h3 => exact absurd h3 h1
            | cons h3 => exact h3

lemma str_lt_eq_true_iff (a b : String) : str_lt a b = true ↔ a < b := by
  rw [str_lt, chars_lt_eq_true_iff]
  exact String.lt_iff_toList_lt.symm

lemma iou_ge_eq_decide (box_a box_b : Box) (th : ℚ) :
    iou_ge box_a box_b th = decide (th ≤ iou box_a box_b) := by
  cases hx : iou_ge box_a box_b th
  · have hn : ¬ th ≤ iou box_a box_b := by
      rw [← iou_ge_eq_true_iff]; simp [hx]
    simp [hn]
  · have hp : th ≤ iou box_a box_b := (iou_ge_eq_true_iff box_a box_b th).mp hx
    simp [hp]

/-! ## C2: vote-filter threshold boundary -/

lemma vote_thr_eq (cfg : Config) (r : PRec) :
    vote_thr cfg r = max 1 (sev_vote_threshold cfg r) := by
  unfold vote_thr sev_vote_threshold
  by_cases h1 : sev_str r.part = "severe" <;> by_cases h2 : sev_str r.part = "moderate" <;>
    simp [h1, h2]

/-- C2: for a cluster representative `r`, with `T` the maximum of the global
floor `MIN_VOTES_PER_PART` and the severity-specific threshold matching
`r`'s severity (any sensible configuration, i.e. `T ≥ 1`), a vote count of
`T - 1` fails the vote filter and a vote count of `T` passes it; the
confirmed list of `union_parts` is exactly the `vote_keep` filter of the
flattened cluster list. -/
theorem C2_vote_filter_boundary (cfg : Config) (r : PRec)
    (h : 1 ≤ max cfg.minVotesPerPart (sev_vote_threshold cfg r)) :
    ((r.votes.getD 0 : Int) = max cfg.minVotesPerPart (sev_vote_threshold cfg r) - 1 →
      vote_keep cfg r = false) ∧
    ((r.votes.getD 0 : Int) = max cfg.minVotesPerPart (sev_vote_threshold cfg r) →
      vote_keep cfg r = true) := by
  unfold vote_keep
  rw [vote_thr_eq]
  constructor <;> intro he
  · rw [decide_eq_false_iff_not]
    omega
  · rw [decide_eq_true_eq]
    omega

def c2cfg : Config :=
  ⟨⟨2, 5, by decide, by decide⟩, 2, 2, 2, 3, false,
    ⟨0, 1, by decide, by decide⟩, ⟨0, 1, by decide, by decide⟩, ⟨0, 1, by decide, by decide⟩,
    2, 2, 1⟩

def c2part : Part := ⟨"hood", "front", "", some "minor", some "dent", none, none, none⟩

def c2rec2 : PRec := ⟨c2part, some 2, none, none⟩

def c2rec3 : PRec := ⟨c2part, some 3, none, none⟩

/-- Witness for C2 at the default configuration (floor 2, minor threshold
3): a minor part with 2 votes is excluded, with 3 votes included. -/
theorem C2_witness :
    vote_keep c2cfg c2rec2 = false ∧ vote_keep c2cfg c2rec3 = true :=
  ⟨(C2_vote_filter_boundary c2cfg c2rec2 (by decide)).1 (by decide),
   (C2_vote_filter_boundary c2cfg c2rec3 (by decide)).2 (by decide)⟩

/-! ## C9: cluster matching rule -/

/-- C9: `_match_cluster` implements the matching rule exactly: a boxed
candidate matches the first cluster under its key whose box has
`IoU ≥ CLUSTER_IOU_THRESH` (`IoU` exactly equal to the threshold merges,
strictly below does not), a boxless candidate matches only the first
boxless cluster, and when nothing matches a new cluster is appended whose
representative is the candidate itself with run set `{rid}` and the
candidate's box. -/
theorem C9_cluster_matching (th : ℚ) :
    (∀ (clusters : List Cluster) (b : Box),
      match_cluster th clusters (some b) =
        clusters.find? (fun cl =>
          match cl.bbox_px with
          | some cb => decide (iou cb b ≥ th)
          | none => false)) ∧
    (∀ clusters : List Cluster, match_cluster th clusters none =
        clusters.find? (fun cl => decide (cl.bbox_px = none))) ∧
    (∀ (cl : Cluster) (cb b : Box), cl.bbox_px = some cb →
      (iou cb b = th → match_cluster th [cl] (some b) = some cl) ∧
      (iou cb b < th → match_cluster th [cl] (some b) = none)) ∧
    (∀ (rid : Nat) (cand : PRec) (clusters : List Cluster),
      match_cluster th clusters cand.part.bbox_px = none →
      step_clusters th rid cand clusters = clusters ++ [new_cluster rid cand]) ∧
    (∀ (rid : Nat) (cand : PRec),
      (new_cluster rid cand).rep = cand ∧ (new_cluster rid cand).runs = [rid] ∧
      (new_cluster rid cand).bbox_px = cand.part.bbox_px) := by
  have hbox : ∀ (clusters : List Cluster) (b : Box),
      match_cluster th clusters (some b) =
        clusters.find? (fun cl =>
          match cl.bbox_px with
          | some cb => decide (iou cb b ≥ th)
          | none => false) := by
    intro clusters b
    show match_cluster_box th b clusters = _
    induction clusters with
    | nil => rfl
    | cons cl rest ih =>
      rw [List.find?]
      cases hcl : cl.bbox_px with
      | none => simpa [match_cluster_box, hcl] using ih
      | some cb =>
        simp only [match_cluster_box, hcl, iou_ge_eq_decide]
        by_cases hle : th ≤ iou cb b
        · simp [hle, ge_iff_le]
        · simpa [hle, ge_iff_le] using ih
  refine ⟨hbox, ?_, ?_, ?_, ?_⟩
  · intro clusters
    show match_cluster_nobox clusters = _
    induction clusters with
    | nil => rfl
    | cons cl rest ih =>
      rw [List.find?]
      cases hcl : cl.bbox_px with
      | none => simp [match_cluster_nobox, hcl]
      | some cb => simpa [match_cluster_nobox, hcl] using ih
  · intro cl cb b hcl
    constructor
    · intro hiou
      show match_cluster_box th b [cl] = some cl
      have : iou_ge cb b th = true := (iou_ge_eq_true_iff cb b th).mpr (le_of_eq hiou.symm)
      simp [match_cluster_box, hcl, this]
    · intro hiou
      show match_cluster_box th b [cl] = none
      have : ¬ iou_ge cb b th = true := by
        rw [iou_ge_eq_true_iff]
        exact not_le.mpr hiou
      simp only [Bool.not_eq_true] at this
      simp [match_cluster_box, hcl, this]
  · intro rid cand clusters hnone
    unfold step_clusters
    rw [hnone]
  · intro rid cand
    exact ⟨rfl, rfl, rfl⟩

def c9cl : Cluster :=
  ⟨⟨⟨"hood", "front", "", some "minor", none, none, some ⟨0, 0, 10, 10⟩, none⟩, none, none, none⟩,
    [0], some ⟨0, 0, 10, 10⟩, 1⟩

/-- Witness for C9 at the default threshold 0.4: against a cluster with box
`(0,0,10,10)`, the candidate box `(0,0,10,4)` has IoU exactly 0.4 and
merges, while `(0,0,10,3)` (IoU 0.3) does not. -/
theorem C9_witness :
    match_cluster (2/5 : ℚ) [c9cl] (some ⟨0, 0, 10, 4⟩) = some c9cl ∧
    match_cluster (2/5 : ℚ) [c9cl] (some ⟨0, 0, 10, 3⟩) = none :=
  ⟨((C9_cluster_matching (2/5)).2.2.1 c9cl ⟨0, 0, 10, 10⟩ ⟨0, 0, 10, 4⟩ rfl).1
      (by norm_num [iou, inter_area, union_area, imax, imin]),
   ((C9_cluster_matching (2/5)).2.2.1 c9cl ⟨0, 0, 10, 10⟩ ⟨0, 0, 10, 3⟩ rfl).2
      (by norm_num [iou, inter_area, union_area, imax, imin])⟩

/-! ## C8: representative-selection preference order -/


def strictly_prefer (a b : PRec) : Prop :=
  sev_rank b.part < sev_rank a.part ∨
  (sev_rank a.part = sev_rank b.part ∧ (desc_of b.part).length < (desc_of a.part).length) ∨
  (sev_rank a.part = sev_rank b.part ∧ (desc_of a.part).length = (desc_of b.part).length ∧
    triple_lt (norm_triple a.part) (norm_triple b.part) = true)

def pref_equiv (a b : PRec) : Prop :=
  sev_rank a.part = sev_rank b.part ∧ (desc_of a.part).length = (desc_of b.part).length ∧
  norm_triple a.part = norm_triple b.part

lemma triple_lt_iff (x y : String × String × String) :
    triple_lt x y = true ↔
      x.1 < y.1 ∨ (x.1 = y.1 ∧ (x.2.1 < y.2.1 ∨ (x.2.1 = y.2.1 ∧ x.2.2 < y.2.2))) := by
  simp [triple_lt, Bool.or_eq_true, Bool.and_eq_true, str_lt_eq_true_iff, beq_iff_eq]

lemma triple_lt_asymm (x y : String × String × String) (h : triple_lt x y = true) :
    triple_lt y x = false := by
  rw [triple_lt_iff] at h
  rw [Bool.eq_false_iff, Ne, triple_lt_iff]
  rcases h with h | ⟨he, h⟩
  · rintro (h2 | ⟨he2, h2⟩)
    · exact absurd h (lt_asymm h2)
    · exact absurd h (by rw [he2]; exact lt_irrefl _)
  · rcases h with h | ⟨he1, h⟩
    · rintro (h2 | ⟨he2, h2 | ⟨he3, h2⟩⟩)
      · exact absurd h2 (by rw [he]; exact lt_irrefl _)
      · exact absurd h (lt_asymm h2)
      · exact absurd h (by rw [he3]; exact lt_irrefl _)
    · rintro (h2 | ⟨he2, h2 | ⟨he3, h2⟩⟩)
      · exact absurd h2 (by rw [he]; exact lt_irrefl _)
      · exact absurd h2 (by rw [he1]; exact lt_irrefl _)
      · exact absurd h (lt_asymm h2)

lemma triple_lt_trichotomy (x y : String × String × String) :
    triple_lt x y = true ∨ triple_lt y x = true ∨ x = y := by
  rcases lt_trichotomy x.1 y.1 with h1 | h1 | h1
  · exact Or.inl ((triple_lt_iff x y).mpr (Or.inl h1))
  · rcases lt_trichotomy x.2.1 y.2.1 with h2 | h2 | h2
    · exact Or.inl ((triple_lt_iff x y).mpr (Or.inr ⟨h1, Or.inl h2⟩))
    · rcases lt_trichotomy x.2.2 y.2.2 with h3 | h3 | h3
      · exact Or.inl ((triple_lt_iff x y).mpr (Or.inr ⟨h1, Or.inr ⟨h2, h3⟩⟩))
      · refine Or.inr (Or.inr ?_)
        obtain ⟨xa, xb, xc⟩ := x
        obtain ⟨ya, yb, yc⟩ := y
        simp only at h1 h2 h3
        rw [h1, h2, h3]
      · exact Or.inr (Or.inl ((triple_lt_iff y x).mpr (Or.inr ⟨h1.symm, Or.inr ⟨h2.symm, h3⟩⟩)))
    · exact Or.inr (Or.inl ((triple_lt_iff y x).mpr (Or.inr ⟨h1.symm, Or.inl h2⟩)))
  · exact Or.inr (Or.inl ((triple_lt_iff y x).mpr (Or.inl h1)))

lemma upgrade_keeps_base (base cand : PRec) (h : strictly_prefer base cand) :
    upgrade base cand = base := by
  rcases h with h | ⟨h1, h2⟩ | ⟨h1, h2, h3⟩
  · have hn1 : ¬ sev_rank cand.part > sev_rank base.part := by omega
    have hn2 : ¬ (sev_rank cand.part = sev_rank base.part ∧
        (desc_of cand.part).length > (desc_of base.part).length) := by
      rintro ⟨hx, _⟩; omega
    have hn3 : ¬ (sev_rank cand.part = sev_rank base.part ∧
        (desc_of cand.part).length = (desc_of base.part).length) := by
      rintro ⟨hx, _⟩; omega
    simp [upgrade, upgrade_choose, hn1, hn2, hn3]
  · have hn1 : ¬ sev_rank cand.part > sev_rank base.part := by omega
    have hn2 : ¬ (sev_rank cand.part = sev_rank base.part ∧
        (desc_of cand.part).length > (desc_of base.part).length) := by
      rintro ⟨_, hx⟩; omega
    have hn3 : ¬ (sev_rank cand.part = sev_rank base.part ∧
        (desc_of cand.part).length = (desc_of base.part).length) := by
      rintro ⟨_, hx⟩; omega
    simp [upgrade, upgrade_choose, hn1, hn2, hn3]
  · have hn1 : ¬ sev_rank cand.part > sev_rank base.part := by omega
    have hn2 : ¬ (sev_rank cand.part = sev_rank base.part ∧
        (desc_of cand.part).length > (desc_of base.part).length) := by
      rintro ⟨_, hx⟩; omega
    have hp3 : sev_rank cand.part = sev_rank base.part ∧
        (desc_of cand.part).length = (desc_of base.part).length := ⟨h1.symm, h2.symm⟩
    have hf : triple_lt (norm_triple cand.part) (norm_triple base.part) = false :=
      triple_lt_asymm _ _ h3
    simp [upgrade, upgrade_choose, hn1, hn2, hp3, hf]

lemma upgrade_chooses_cand (base cand : PRec) (h : strictly_prefer cand base) :
    upgrade base cand = { cand with part := { cand.part with
      image := if opt_str_falsy cand.part.image ∧ ¬ opt_str_falsy base.part.image
        then base.part.image else cand.part.image
      bbox_px := if cand.part.bbox_px.isNone ∧ base.part.bbox_px.isSome
        then base.part.bbox_px else cand.part.bbox_px } } := by
  rcases h with h | ⟨h1, h2⟩ | ⟨h1, h2, h3⟩
  · have hp1 : sev_rank cand.part > sev_rank base.part := h
    simp [upgrade, upgrade_choose, hp1]
  · have hn1 : ¬ sev_rank cand.part > sev_rank base.part := by omega
    have hp2 : sev_rank cand.part = sev_rank base.part ∧
        (desc_of cand.part).length > (desc_of base.part).length := ⟨h1, h2⟩
    simp [upgrade, upgrade_choose, hn1, hp2]
  · have hn1 : ¬ sev_rank cand.part > sev_rank base.part := by omega
    have hn2 : ¬ (sev_rank cand.part = sev_rank base.part ∧
        (desc_of cand.part).length > (desc_of base.part).length) := by
      rintro ⟨_, hx⟩; omega
    have hp3 : sev_rank cand.part = sev_rank base.part ∧
        (desc_of cand.part).length = (desc_of base.part).length := ⟨h1, h2⟩
    simp [upgrade, upgrade_choose, hn1, hn2, hp3, h3]

/-- C8 (amended): the representative preference is a deterministic total
preorder: severity rank, then description length, then the lexicographically
smaller normalized `(name, location, description)` triple; any two records
are comparable or tie-equivalent.  When one record is strictly preferred,
`_prefer_part` picks it regardless of argument order, `_upgrade` keeps a
strictly preferred base unchanged and, when the candidate is strictly
preferred, returns the candidate with `image`/`bbox_px` carried over from
the base where missing.  (The original claim's strict total order fails on
tie-equivalent distinct records, see the counterexample.) -/
theorem C8_preference_total_preorder :
    (∀ a b : PRec, strictly_prefer a b ∨ strictly_prefer b a ∨ pref_equiv a b) ∧
    (∀ a b : PRec, strictly_prefer a b →
      prefer_part a (some b) = a ∧ prefer_part b (some a) = a) ∧
    (∀ a b : PRec, strictly_prefer a b → upgrade a b = a ∧
      upgrade b a = { a with part := { a.part with
        image := if opt_str_falsy a.part.image ∧ ¬ opt_str_falsy b.part.image
          then b.part.image else a.part.image
        bbox_px := if a.part.bbox_px.isNone ∧ b.part.bbox_px.isSome
          then b.part.bbox_px else a.part.bbox_px } }) := by
  refine ⟨?_, ?_, ?_⟩
  · intro a b
    rcases lt_trichotomy (sev_rank a.part) (sev_rank b.part) with h1 | h1 | h1
    · exact Or.inr (Or.inl (Or.inl h1))
    · rcases lt_trichotomy (desc_of a.part).length (desc_of b.part).length with h2 | h2 | h2
      · exact Or.inr (Or.inl (Or.inr (Or.inl ⟨h1.symm, h2⟩)))
      · rcases triple_lt_trichotomy (norm_triple a.part) (norm_triple b.part) with h3 | h3 | h3
        · exact Or.inl (Or.inr (Or.inr ⟨h1, h2, h3⟩))
        · exact Or.inr (Or.inl (Or.inr (Or.inr ⟨h1.symm, h2.symm, h3⟩)))
        · exact Or.inr (Or.inr ⟨h1, h2, h3⟩)
      · exact Or.inl (Or.inr (Or.inl ⟨h1, h2⟩))
    · exact Or.inl (Or.inl h1)
  · intro a b h
    rcases h with h | ⟨h1, h2⟩ | ⟨h1, h2, h3⟩
    · constructor
      · show (if sev_rank a.part > sev_rank b.part then a else _) = a
        rw [if_pos h]
      · show (if sev_rank b.part > sev_rank a.part then b
          else if sev_rank b.part < sev_rank a.part then a else _) = a
        rw [if_neg (by omega), if_pos h]
    · constructor
      · show (if sev_rank a.part > sev_rank b.part then a
          else if sev_rank a.part < sev_rank b.part then b
          else if (desc_of a.part).length > (desc_of b.part).length then a else _) = a
        rw [if_neg (by omega), if_neg (by omega), if_pos h2]
      · show (if sev_rank b.part > sev_rank a.part then b
          else if sev_rank b.part < sev_rank a.part then a
          else if (desc_of b.part).length > (desc_of a.part).length then b
          else if (desc_of b.part).length < (desc_of a.part).length then a else _) = a
        rw [if_neg (by omega), if_neg (by omega), if_neg (by omega), if_pos h2]
    · constructor
      · show (if sev_rank a.part > sev_rank b.part then a
          else if sev_rank a.part < sev_rank b.part then b
          else if (desc_of a.part).length > (desc_of b.part).length then a
          else if (desc_of a.part).length < (desc_of b.part).length then b
          else if triple_lt (norm_triple a.part) (norm_triple b.part) then a else b) = a
        rw [if_neg (by omega), if_neg (by omega), if_neg (by omega), if_neg (by omega), if_pos h3]
      · show (if sev_rank b.part > sev_rank a.part then b
          else if sev_rank b.part < sev_rank a.part then a
          else if (desc_of b.part).length > (desc_of a.part).length then b
          else if (desc_of b.part).length < (desc_of a.part).length then a
          else if triple_lt (norm_triple b.part) (norm_triple a.part) then b else a) = a
        rw [if_neg (by omega), if_neg (by omega), if_neg (by omega), if_neg (by omega),
          if_neg (by simp [triple_lt_asymm _ _ h3])]
  · intro a b h
    exact ⟨upgrade_keeps_base a b h, upgrade_chooses_cand b a h⟩

def c8a : PRec := ⟨⟨"Hood", "front", "", none, none, none, none, none⟩, none, none, none⟩
def c8b : PRec := ⟨⟨"hood", "front", "", none, none, none, none, none⟩, none, none, none⟩

/-- C8 counterexample: two distinct records that differ only in the casing
of `name` are an unresolved tie: each comparison order keeps its own base,
so the chosen representative depends on the order of comparison and the
preference is not a strict total order on records. -/
theorem C8_counterexample :
    prefer_part c8a (some c8b) = c8b ∧ prefer_part c8b (some c8a) = c8a ∧ c8a ≠ c8b := by
  refine ⟨rfl, rfl, ?_⟩
  intro h
  exact absurd (congrArg (fun r => r.part.name) h) (by decide)

def c8c : PRec := ⟨⟨"hood", "front", "", some "severe", none, none, none, none⟩, none, none, none⟩
def c8d : PRec := ⟨⟨"hood", "front", "", some "minor", none, none, some ⟨0,0,1,1⟩, none⟩, none, none, none⟩

/-- Witness for C8: a severe record strictly beats a minor one, and wins
`_prefer_part` under both argument orders. -/
theorem C8_witness :
    prefer_part c8c (some c8d) = c8c ∧ prefer_part c8d (some c8c) = c8c :=
  (C8_preference_total_preorder.2.1 c8c c8d (Or.inl (by decide)))

/-! ## C6: canonicalization idempotence -/

set_option maxHeartbeats 1000000

def c6s1 : Part := ⟨"Bonnet", "Driver side", "", some "high", some "dent", none, none, none⟩
def c6s2 : Part := ⟨"Hood", "Left", "", some "minor", none, none, none, none⟩
def c6s3 : Part := ⟨"Grill", "back", "", some "medium", some "", none, none, none⟩
def c6s4 : Part := ⟨"Grille", "rear", "", some "low", none, some "scratch", none, none⟩
def c6samples : List Part := [c6s1, c6s2, c6s3, c6s4]

lemma c6s1_step : canonicalize_part c6s1 =
    ⟨"hood", "left", "", some "severe", some "dent", none, none, none⟩ := rfl
lemma c6s1_fix : canonicalize_part (⟨"hood", "left", "", some "severe", some "dent", none, none, none⟩ : Part) =
    ⟨"hood", "left", "", some "severe", some "dent", none, none, none⟩ := rfl
lemma c6s2_step : canonicalize_part c6s2 =
    ⟨"hood", "left", "", some "minor", none, none, none, none⟩ := rfl
lemma c6s2_fix : canonicalize_part (⟨"hood", "left", "", some "minor", none, none, none, none⟩ : Part) =
    ⟨"hood", "left", "", some "minor", none, none, none, none⟩ := rfl
lemma c6s3_step : canonicalize_part c6s3 =
    ⟨"grille", "rear", "", some "moderate", some "", none, none, none⟩ := rfl
lemma c6s3_fix : canonicalize_part (⟨"grille", "rear", "", some "moderate", some "", none, none, none⟩ : Part) =
    ⟨"grille", "rear", "", some "moderate", some "", none, none, none⟩ := rfl
lemma c6s4_step : canonicalize_part c6s4 =
    ⟨"grille", "rear", "", some "minor", none, some "scratch", none, none⟩ := rfl
lemma c6s4_fix : canonicalize_part (⟨"grille", "rear", "", some "minor", none, some "scratch", none, none⟩ : Part) =
    ⟨"grille", "rear", "", some "minor", none, some "scratch", none, none⟩ := rfl

/-- C6 (amended): `canonicalize_part` is idempotent on the claim's synonym
variants (Bonnet/Hood, Grill/Grille, Driver side/Left, back/rear and the
high/medium/low severities).  It is not idempotent on every record: the
location replacement chain can need a second pass (see the
counterexample). -/
theorem C6_canonicalize_idempotent_on_samples :
    ∀ p ∈ c6samples, canonicalize_part (canonicalize_part p) = canonicalize_part p := by
  intro p hp
  fin_cases hp
  · rw [c6s1_step, c6s1_fix]
  · rw [c6s2_step, c6s2_fix]
  · rw [c6s3_step, c6s3_fix]
  · rw [c6s4_step, c6s4_fix]

def c6bad : Part := ⟨"hood", "xback endx", "", some "minor", some "dent", none, none, none⟩

lemma c6bad_step1 : canonicalize_part c6bad =
    ⟨"hood", "xrear endx", "", some "minor", some "dent", none, none, none⟩ := rfl
lemma c6bad_step2 :
    canonicalize_part (⟨"hood", "xrear endx", "", some "minor", some "dent", none, none, none⟩ : Part) =
    ⟨"hood", "xrearx", "", some "minor", some "dent", none, none, none⟩ := rfl

/-- C6 counterexample: for location `"xback endx"` the first pass rewrites
`back -> rear`, creating the substring `rear end` across a word boundary,
which the second pass rewrites again (`"xrear endx" -> "xrearx"`), so
`canonicalize(canonicalize(x)) ≠ canonicalize(x)`. -/
theorem C6_counterexample :
    canonicalize_part (canonicalize_part c6bad) ≠ canonicalize_part c6bad := by
  rw [c6bad_step1, c6bad_step2]
  intro h
  exact absurd (congrArg Part.location h) (by decide)

/-- Witness for C6 on the `"Bonnet"@"Driver side"` sample. -/
theorem C6_witness :
    canonicalize_part (canonicalize_part c6s1) = canonicalize_part c6s1 :=
  C6_canonicalize_idempotent_on_samples c6s1 (by simp [c6samples])

/-! ## C5: order (in)dependence of aggregation -/

set_option maxHeartbeats 1000000

def c5pA : Part := ⟨"hood", "", "", some "minor", some "aa", none, some ⟨0, 0, 10, 10⟩, none⟩
def c5pB : Part := ⟨"hood", "", "", some "minor", some "bb", none, some ⟨0, 10, 10, 20⟩, none⟩
def c5pC : Part := ⟨"hood", "", "", some "minor", some "", none, some ⟨0, 0, 10, 20⟩, none⟩
def c5r0 : Run := ⟨⟨none, none, none⟩, [.part c5pA]⟩
def c5r1 : Run := ⟨⟨none, none, none⟩, [.part c5pB]⟩
def c5r2 : Run := ⟨⟨none, none, none⟩, [.part c5pC]⟩
def c5cfg : Config :=
  ⟨⟨2, 5, by decide, by decide⟩, 1, 1, 1, 1, false,
    ⟨0, 1, by decide, by decide⟩, ⟨0, 1, by decide, by decide⟩, ⟨0, 1, by decide, by decide⟩,
    2, 2, 1⟩

lemma c5obs1 : (union_parts c5cfg [c5r0, c5r1, c5r2]).damaged_parts.map
    (fun r => r.part.description) = [some "aa", some "bb"] := rfl

lemma c5obs2 : (union_parts c5cfg [c5r1, c5r0, c5r2]).damaged_parts.map
    (fun r => r.part.description) = [some "bb", some "aa"] := rfl

/-- C5 counterexample: three runs, all with key `("hood","")`; the boxes of
runs 0 and 1 are disjoint (two clusters), and run 2's box overlaps both at
IoU 0.5.  The first-match rule attaches run 2 to whichever cluster was
created first, so swapping the first two runs changes which representative
gets 2 votes and reverses the output ordering: `union_parts` is not
invariant under permutations of the run list. -/
theorem C5_counterexample :
    ([c5r1, c5r0, c5r2] : List Run).Perm [c5r0, c5r1, c5r2] ∧
    union_parts c5cfg [c5r0, c5r1, c5r2] ≠ union_parts c5cfg [c5r1, c5r0, c5r2] := by
  constructor
  · exact List.Perm.swap c5r0 c5r1 [c5r2]
  · intro h
    have h2 := congrArg (fun o => o.damaged_parts.map (fun r => r.part.description)) h
    simp only [] at h2
    rw [c5obs1, c5obs2] at h2
    exact absurd h2 (by decide)

/-- C5 (amended): consolidation is a pure deterministic function of the
ordered list of completed run outputs: re-running it on the identical fixed
list yields an identical result (clusters, vote counts, representatives,
output ordering and the potential track).  Invariance under permutations of
that list does not hold (see the counterexample). -/
theorem C5_union_parts_deterministic (cfg : Config) (runs : List Run) :
    union_parts cfg runs = union_parts cfg runs := rfl

/-! ## C3: votes equal supporting-run cardinality -/


def cluster_inv (st : ClusterMap) : Prop :=
  ∀ kc ∈ st, ∀ cl ∈ kc.2, cl.runs.Nodup ∧ cl.rep.potential_reason = none

lemma mem_update_first {α : Type} (p : α → Bool) (f : α → α) (l : List α) (x : α)
    (h : x ∈ update_first p f l) : x ∈ l ∨ ∃ y ∈ l, x = f y := by
  induction l with
  | nil => cases h
  | cons a l ih =>
    unfold update_first at h
    by_cases hp : p a
    · rw [if_pos hp] at h
      rcases List.mem_cons.mp h with h | h
      · exact Or.inr ⟨a, List.mem_cons_self a l, h⟩
      · exact Or.inl (List.mem_cons_of_mem a h)
    · rw [if_neg hp] at h
      rcases List.mem_cons.mp h with h | h
      · exact Or.inl (h ▸ List.mem_cons_self a l)
      · rcases ih h with h | ⟨y, hy, hxy⟩
        · exact Or.inl (List.mem_cons_of_mem a h)
        · exact Or.inr ⟨y, List.mem_cons_of_mem a hy, hxy⟩

lemma mem_step_clusters (th : ℚ) (rid : Nat) (cand : PRec) (l : List Cluster) (cl : Cluster)
    (h : cl ∈ step_clusters th rid cand l) :
    cl ∈ l ∨ (∃ y ∈ l, cl = join_cluster rid cand y) ∨ cl = new_cluster rid cand := by
  unfold step_clusters at h
  split at h
  · rcases List.mem_append.mp h with h | h
    · exact Or.inl h
    · right; right; simpa using h
  · rcases mem_update_first _ _ _ _ h with h | ⟨y, hy, hxy⟩
    · exact Or.inl h
    · exact Or.inr (Or.inl ⟨y, hy, hxy⟩)

lemma mem_upd_assoc (k : Key) (f : List Cluster → List Cluster) (st : ClusterMap)
    (kv : Key × List Cluster) (h : kv ∈ upd_assoc k f st) :
    kv ∈ st ∨ ∃ v, (k, v) ∈ st ∧ kv = (k, f v) := by
  induction st with
  | nil => cases h
  | cons a st ih =>
    unfold upd_assoc at h
    by_cases hk : a.1 = k
    · rw [if_pos hk] at h
      rcases List.mem_cons.mp h with h | h
      · right
        refine ⟨a.2, ?_, by rw [h, hk]⟩
        have : (k, a.2) = a := by rw [← hk]
        rw [this]
        exact List.mem_cons_self a st
      · exact Or.inl (List.mem_cons_of_mem a h)
    · rw [if_neg hk] at h
      rcases List.mem_cons.mp h with h | h
      · exact Or.inl (h ▸ List.mem_cons_self a st)
      · rcases ih h with h | ⟨v, hv, hkv⟩
        · exact Or.inl (List.mem_cons_of_mem a h)
        · exact Or.inr ⟨v, List.mem_cons_of_mem a hv, hkv⟩

lemma join_cluster_runs_nodup (rid : Nat) (cand : PRec) (cl : Cluster)
    (h : cl.runs.Nodup) : (join_cluster rid cand cl).runs.Nodup := by
  unfold join_cluster
  by_cases hmem : rid ∈ cl.runs
  · simpa [hmem] using h
  · simp only [hmem, if_neg, not_false_iff]
    simp [List.nodup_append, h, hmem]

lemma upgrade_reason_none (base cand : PRec) (hb : base.potential_reason = none)
    (hc : cand.potential_reason = none) : (upgrade base cand).potential_reason = none := by
  unfold upgrade
  split
  · exact hc
  · exact hb

lemma cluster_inv_add (th : ℚ) (rid : Nat) (st : ClusterMap) (cand : PRec)
    (hinv : cluster_inv st) (hc : cand.potential_reason = none) :
    cluster_inv (add_candidate th rid st cand) := by
  intro kc hkc cl hcl
  unfold add_candidate at hkc
  have hstep : ∀ v : List Cluster, (∀ c ∈ v, c.runs.Nodup ∧ c.rep.potential_reason = none) →
      cl ∈ step_clusters th rid cand v → cl.runs.Nodup ∧ cl.rep.potential_reason = none := by
    intro v hv hmem
    rcases mem_step_clusters th rid cand v cl hmem with h | ⟨y, hy, hcl'⟩ | hcl'
    · exact hv cl h
    · rcases hv y hy with ⟨h1, h2⟩
      subst hcl'
      exact ⟨join_cluster_runs_nodup rid cand y h1, upgrade_reason_none y.rep cand h2 hc⟩
    · subst hcl'
      exact ⟨List.nodup_singleton rid, hc⟩
  by_cases hk : has_key st (key_for_rec cand)
  · rw [if_pos hk] at hkc
    rcases mem_upd_assoc _ _ _ _ hkc with hkc | ⟨v, hv, hkc'⟩
    · exact hinv kc hkc cl hcl
    · subst hkc'
      exact hstep v (fun c hcv => hinv (key_for_rec cand, v) hv c hcv) hcl
  · rw [if_neg hk] at hkc
    rcases List.mem_append.mp hkc with hkc | hkc
    · exact hinv kc hkc cl hcl
    · have hkc2 : kc = (key_for_rec cand, step_clusters th rid cand []) := by simpa using hkc
      subst hkc2
      exact hstep [] (fun c hcv => absurd hcv (List.not_mem_nil c)) hcl

lemma sanitize_reason_none (items : List RawItem) :
    ∀ r ∈ sanitize_parts items, r.potential_reason = none := by
  induction items with
  | nil => intro r hr; cases hr
  | cons it items ih =>
    intro r hr
    cases it with
    | part p =>
      have hstep : sanitize_parts (RawItem.part p :: items) =
          ⟨canonicalize_part p, none, none, none⟩ :: sanitize_parts items := by
        simp only [sanitize_parts, List.filterMap_cons]
      rw [hstep] at hr
      rcases List.mem_cons.mp hr with rfl | hr2
      · rfl
      · exact ih r hr2
    | str s =>
      by_cases h0 : pyStrip (pyLstripBullets (pyStrip s)) = ""
      · have hstep : sanitize_parts (RawItem.str s :: items) = sanitize_parts items := by
          simp only [sanitize_parts, List.filterMap_cons, h0, if_pos]
        rw [hstep] at hr
        exact ih r hr
      · have hstep : sanitize_parts (RawItem.str s :: items) =
            ⟨canonicalize_part ⟨pyStrip (pyLstripBullets (pyStrip s)), "", "", some "minor",
              none, some "", none, none⟩, none, none, none⟩ :: sanitize_parts items := by
          simp only [sanitize_parts, List.filterMap_cons, h0, if_neg, not_false_iff]
        rw [hstep] at hr
        rcases List.mem_cons.mp hr with rfl | hr2
        · rfl
        · exact ih r hr2

lemma cluster_inv_fold_cands (th : ℚ) (rid : Nat) (cands : List PRec) :
    ∀ st : ClusterMap, cluster_inv st → (∀ c ∈ cands, c.potential_reason = none) →
    cluster_inv (cands.foldl (fun st' c => add_candidate th rid st' c) st) := by
  induction cands with
  | nil => intro st h _; exact h
  | cons c cands ih =>
    intro st h hr
    exact ih (add_candidate th rid st c)
      (cluster_inv_add th rid st c h (hr c (List.mem_cons_self c cands)))
      (fun x hx => hr x (List.mem_cons_of_mem c hx))

lemma cluster_inv_build (th : ℚ) (runs : List Run) : cluster_inv (build_clusters th runs) := by
  unfold build_clusters
  have hgen : ∀ (l : List (Nat × Run)) (st : ClusterMap), cluster_inv st →
      cluster_inv (l.foldl (fun st rr => (sanitize_parts rr.2.damaged_parts).foldl
        (fun st' c => add_candidate th rr.1 st' c) st) st) := by
    intro l
    induction l with
    | nil => intro st h; exact h
    | cons rr l ih =>
      intro st h
      exact ih _ (cluster_inv_fold_cands th rr.1 _ st h
        (sanitize_reason_none rr.2.damaged_parts))
  exact hgen runs.enum [] (fun kc hkc => absurd hkc (List.not_mem_nil kc))

lemma raw_parts_reason_none (th : ℚ) (runs : List Run) :
    ∀ r ∈ raw_parts th runs, r.potential_reason = none := by
  intro r hr
  rcases List.mem_flatMap.mp hr with ⟨kc, hkc, hr2⟩
  rcases List.mem_map.mp hr2 with ⟨cl, hcl, heq⟩
  rw [← heq]
  exact (cluster_inv_build th runs kc hkc cl hcl).2

/-- C3: in every cluster built by the aggregator the supporting-run list is
duplicate-free (a run contributes at most one vote to a cluster even when it
emitted several duplicate candidates matching it), and every flattened part
carries `_votes` equal to the cardinality of its cluster's supporting-run
set. -/
theorem C3_votes_eq_supporting_runs (th : ℚ) (runs : List Run) :
    (∀ kc ∈ build_clusters th runs, ∀ cl ∈ kc.2, cl.runs.Nodup) ∧
    (∀ r ∈ raw_parts th runs, ∃ kc ∈ build_clusters th runs, ∃ cl ∈ kc.2,
      cl.runs.Nodup ∧ r.votes = some cl.runs.length ∧
      r = { cl.rep with votes := some cl.runs.length }) := by
  constructor
  · intro kc hkc cl hcl
    exact (cluster_inv_build th runs kc hkc cl hcl).1
  · intro r hr
    unfold raw_parts at hr
    rcases List.mem_flatMap.mp hr with ⟨kc, hkc, hr2⟩
    rcases List.mem_map.mp hr2 with ⟨cl, hcl, heq⟩
    exact ⟨kc, hkc, cl, hcl, (cluster_inv_build th runs kc hkc cl hcl).1,
      by rw [← heq], heq.symm⟩

def c3p : Part := ⟨"hood", "front", "", some "minor", some "dent", none, none, none⟩

def c3runs : List Run :=
  [⟨⟨none, none, none⟩, [.part c3p, .part c3p]⟩, ⟨⟨none, none, none⟩, [.part c3p]⟩]

def c3th : ℚ := ⟨2, 5, by decide, by decide⟩

/-- Witness for C3: run 0 emits the same candidate twice and run 1 once;
the single cluster's run set is `[0, 1]` (no duplicate vote from run 0) and
the flattened part carries `_votes = 2`, not 3. -/
theorem C3_witness :
    ∃ kc ∈ build_clusters c3th c3runs, ∃ cl ∈ kc.2,
      cl.runs.Nodup ∧ (⟨c3p, some 2, none, none⟩ : PRec).votes = some cl.runs.length ∧
      (⟨c3p, some 2, none, none⟩ : PRec) = { cl.rep with votes := some cl.runs.length } :=
  (C3_votes_eq_supporting_runs c3th c3runs).2 ⟨c3p, some 2, none, none⟩ (by decide)

/-! ## C7: comprehensive-mode retention of vote-filtered clusters -/


lemma pot_aux_covers (def_keys : List Key) (rest : List PRec) :
    ∀ (seen : List Key) (r : PRec), r ∈ rest →
      (∀ x ∈ rest, x.potential_reason = none) →
      key_for_rec r ∉ def_keys →
      key_for_rec r ∈ seen ∨
        ∃ e ∈ pot_aux def_keys seen rest,
          key_for_rec e = key_for_rec r ∧ e.potential_reason = some "insufficient_votes" := by
  induction rest with
  | nil => intro seen r hr; cases hr
  | cons a rest ih =>
    intro seen r hr hnone hnd
    unfold pot_aux
    by_cases hskip : key_for_rec a ∈ def_keys ∨ key_for_rec a ∈ seen
    · rw [if_pos hskip]
      rcases List.mem_cons.mp hr with rfl | hr2
      · rcases hskip with h | h
        · exact absurd h hnd
        · exact Or.inl h
      · exact ih seen r hr2 (fun x hx => hnone x (List.mem_cons_of_mem a hx)) hnd
    · rw [if_neg hskip]
      by_cases heq : key_for_rec r = key_for_rec a
      · right
        refine ⟨⟨a.part, a.votes, some (a.potential_reason.getD "insufficient_votes"), a.verify⟩,
          List.mem_cons_self _ _, heq.symm, ?_⟩
        rw [hnone a (List.mem_cons_self a rest)]
        rfl
      · rcases List.mem_cons.mp hr with rfl | hr2
        · exact absurd rfl heq
        · rcases ih (key_for_rec a :: seen) r hr2
            (fun x hx => hnone x (List.mem_cons_of_mem a hx)) hnd with h | ⟨e, he, hk, hre⟩
          · rcases List.mem_cons.mp h with h | h
            · exact absurd h heq
            · exact Or.inl h
          · exact Or.inr ⟨e, List.mem_cons_of_mem _ he, hk, hre⟩

/-- C7 (amended): in comprehensive mode, every flattened cluster part that
fails the vote threshold and whose canonical key is not among the confirmed
keys appears (under its key) in the returned `potential_parts` with reason
`insufficient_votes`.  A failing cluster whose key also has a confirmed
cluster is dropped instead (the confirmed/potential tracks are kept
key-disjoint), and duplicate failing keys are collapsed to one entry — see
the counterexample for the dropped case. -/
theorem C7_potential_on_vote_failure (cfg : Config) (runs : List Run) (r : PRec)
    (hc : cfg.comprehensiveMode = true)
    (hr : r ∈ raw_parts cfg.clusterIouThresh runs)
    (_hfail : vote_keep cfg r = false)
    (hkey : key_for_rec r ∉ (filtered_parts cfg runs).map key_for_rec) :
    ∃ l, (union_parts cfg runs).potential_parts = some l ∧
      ∃ e ∈ l, key_for_rec e = key_for_rec r ∧
        e.potential_reason = some "insufficient_votes" := by
  have hne : runs ≠ [] := by
    intro h
    subst h
    exact absurd hr (List.not_mem_nil r)
  have hpot : ∃ e ∈ potential_from_votes cfg runs,
      key_for_rec e = key_for_rec r ∧ e.potential_reason = some "insufficient_votes" := by
    unfold potential_from_votes
    rw [if_pos hc]
    rcases pot_aux_covers ((filtered_parts cfg runs).map key_for_rec)
        (raw_parts cfg.clusterIouThresh runs) [] r hr
        (raw_parts_reason_none cfg.clusterIouThresh runs) hkey with h | h
    · cases h
    · exact h
  rcases hpot with ⟨e, he, hk, hre⟩
  have hpotne : potential_from_votes cfg runs ≠ [] := by
    intro h
    rw [h] at he
    exact absurd he (List.not_mem_nil e)
  refine ⟨potential_from_votes cfg runs, ?_, e, he, hk, hre⟩
  unfold union_parts
  rw [if_neg hne]
  simp only [hc, hpotne, ne_eq, not_false_iff, and_self, if_pos]

def c7pA : Part := ⟨"hood", "", "", some "minor", some "aa", none, some ⟨0, 0, 10, 10⟩, none⟩
def c7pB : Part := ⟨"hood", "", "", some "minor", some "bb", none, some ⟨0, 10, 10, 20⟩, none⟩
def c7cfg : Config :=
  ⟨⟨2, 5, by decide, by decide⟩, 2, 2, 2, 2, true,
    ⟨0, 1, by decide, by decide⟩, ⟨0, 1, by decide, by decide⟩, ⟨0, 1, by decide, by decide⟩,
    2, 2, 1⟩
def c7runs : List Run :=
  [⟨⟨none, none, none⟩, [.part c7pA, .part c7pB]⟩, ⟨⟨none, none, none⟩, [.part c7pA]⟩]

/-- C7 counterexample: two clusters share the key `("hood","")`; the first
(2 votes) passes the threshold, the second (1 vote) fails it.  In
comprehensive mode the failing cluster is dropped entirely — the output has
no `potential_parts` at all — because its key is already confirmed.  So not
every vote-filtered cluster is retained as potential. -/
theorem C7_counterexample :
    c7cfg.comprehensiveMode = true ∧
    (∃ r ∈ raw_parts c7cfg.clusterIouThresh c7runs, vote_keep c7cfg r = false) ∧
    (union_parts c7cfg c7runs).potential_parts = none := by
  refine ⟨rfl, ?_, rfl⟩
  exact ⟨⟨c7pB, some 1, none, none⟩, by decide, by decide⟩

def c7solo : List Run := [⟨⟨none, none, none⟩, [.part c7pB]⟩]

/-- Witness for C7: a single 1-vote cluster below the threshold, with no
confirmed cluster sharing its key, lands in `potential_parts` with reason
`insufficient_votes`. -/
theorem C7_witness :
    ∃ l, (union_parts c7cfg c7solo).potential_parts = some l ∧
      ∃ e ∈ l, key_for_rec e = key_for_rec ⟨c7pB, some 1, none, none⟩ ∧
        e.potential_reason = some "insufficient_votes" :=
  C7_potential_on_vote_failure c7cfg c7solo ⟨c7pB, some 1, none, none⟩ rfl
    (by decide) (by decide) (by decide)

/-! ## C4: verification decision and comprehensive-mode demotion -/


lemma rat_le_eq_decide (a b : ℚ) : rat_le a b = decide (a ≤ b) := by
  cases hx : rat_le a b
  · have hn : ¬ a ≤ b := by rw [← rat_le_eq_true_iff]; simp [hx]
    simp [hn]
  · have hp : a ≤ b := (rat_le_eq_true_iff a b).mp hx
    simp [hp]

lemma votes_yes_map_pass_of (thr : ℚ) (outcomes : List PassOutcome) :
    votes_yes thr (outcomes.map pass_of) =
      (outcomes.filter (fun o => match o with
        | .ok pr c => pr && decide (thr ≤ c)
        | .err => false)).length := by
  induction outcomes with
  | nil => rfl
  | cons o os ih =>
    cases o with
    | ok pr c =>
      simp only [List.map_cons, votes_yes, List.filter_cons] at ih ⊢
      rw [show pass_of (.ok pr c) = ⟨pr, c⟩ from rfl]
      simp only [rat_le_eq_decide] at ih ⊢
      by_cases hp : (pr && decide (thr ≤ c)) = true
      · rw [if_pos hp, if_pos hp, List.length_cons, List.length_cons, ih]
      · rw [if_neg hp, if_neg hp]
        exact ih
    | err =>
      simp only [List.map_cons, votes_yes, List.filter_cons] at ih ⊢
      rw [show pass_of .err = ⟨false, 0⟩ from rfl]
      simpa using ih

lemma verif_split_dropped_of_failed (cfg : Config) (oracle : PRec → List PassOutcome)
    (parts : List PRec) (p : PRec) (hp : p ∈ parts)
    (hfail : (verify_one cfg p (oracle p)).1 = false) :
    ∃ t ∈ (verif_split cfg oracle parts).2,
      t.1 = p ∧ t.2.2 = (verify_one cfg p (oracle p)).2.2 := by
  induction parts with
  | nil => cases hp
  | cons q rest ih =>
    rcases List.mem_cons.mp hp with rfl | hp2
    · simp only [verif_split, hfail, Bool.false_eq_true, if_neg, not_false_iff]
      exact ⟨(p, (verify_one cfg p (oracle p)).2.1, (verify_one cfg p (oracle p)).2.2),
        List.mem_cons_self _ _, rfl, rfl⟩
    · rcases ih hp2 with ⟨t, ht, h1, h2⟩
      simp only [verif_split]
      by_cases hq : (verify_one cfg q (oracle q)).1 = true
      · rw [if_pos hq]
        exact ⟨t, ht, h1, h2⟩
      · rw [if_neg hq]
        exact ⟨t, List.mem_cons_of_mem _ ht, h1, h2⟩

lemma verif_split_dropped_mem (cfg : Config) (oracle : PRec → List PassOutcome)
    (parts : List PRec) (t : PRec × ℚ × Evidence)
    (ht : t ∈ (verif_split cfg oracle parts).2) : t.1 ∈ parts := by
  induction parts with
  | nil => cases ht
  | cons q rest ih =>
    simp only [verif_split] at ht
    by_cases hq : (verify_one cfg q (oracle q)).1 = true
    · rw [if_pos hq] at ht
      exact List.mem_cons_of_mem q (ih ht)
    · rw [if_neg hq] at ht
      rcases List.mem_cons.mp ht with rfl | ht2
      · exact List.mem_cons_self q rest
      · exact List.mem_cons_of_mem q (ih ht2)

lemma dedup_last_covers (l : List PRec) (k : Key) (hk : k ∈ l.map key_for_rec) :
    ∃ e, (l.filter (fun r => key_for_rec r = k)).getLast? = some e ∧
      e ∈ dedup_last_by_key l := by
  have hkd : k ∈ (l.map key_for_rec).dedup := List.mem_dedup.mpr hk
  rcases List.mem_map.mp hk with ⟨r, hr, hkr⟩
  have hfilter_ne : l.filter (fun r' => key_for_rec r' = k) ≠ [] := by
    intro h
    have hmem : r ∈ l.filter (fun r' => key_for_rec r' = k) :=
      List.mem_filter.mpr ⟨hr, by simp [hkr]⟩
    rw [h] at hmem
    exact absurd hmem (List.not_mem_nil r)
  rcases Option.isSome_iff_exists.mp (List.getLast?_isSome.mpr hfilter_ne) with ⟨e, he⟩
  refine ⟨e, he, ?_⟩
  unfold dedup_last_by_key
  exact List.mem_filterMap.mpr ⟨k, hkd, he⟩

/-- C4 (amended): `votesYes` is the number of verification passes that
parsed to `present = true` with confidence at or above the severity-specific
threshold, where an errored/timed-out pass counts as `present = false,
confidence = 0` (fails closed); the part is retained iff
`votesYes ≥ consensusRequired(severity)`; and in comprehensive mode a
failing part whose canonical key is not among the kept parts' keys is
demoted to `potential_parts` with reason `verification_failed` and its pass
evidence attached.  A failing part whose key is also kept is dropped from
the potential list instead (the kept/potential tracks stay key-disjoint) —
see the counterexample. -/
theorem C4_verification_decision :
    (∀ (cfg : Config) (r : PRec) (outcomes : List PassOutcome),
      (verify_one cfg r outcomes).2.2.votes_yes =
        (outcomes.filter (fun o => match o with
          | .ok pr c => pr && decide (verify_thr cfg r ≤ c)
          | .err => false)).length) ∧
    (pass_of .err = ⟨false, 0⟩) ∧
    (∀ (cfg : Config) (r : PRec) (outcomes : List PassOutcome),
      ((verify_one cfg r outcomes).1 = true ↔
        ((verify_one cfg r outcomes).2.2.votes_yes : Int) ≥ consensus_req cfg r)) ∧
    (∀ (cfg : Config) (oracle : PRec → List PassOutcome) (parts : List PRec)
      (expot : Option (List PRec)) (r : PRec),
      cfg.comprehensiveMode = true → r ∈ parts →
      (verify_one cfg r (oracle r)).1 = false →
      key_for_rec r ∉ (verif_split cfg oracle parts).1.map key_for_rec →
      (∀ p ∈ parts, p.potential_reason = none) →
      ∃ l, (verification_stage cfg oracle parts expot).2 = some l ∧
        ∃ e ∈ l, key_for_rec e = key_for_rec r ∧
          e.potential_reason = some "verification_failed" ∧ e.verify.isSome = true) := by
  refine ⟨?_, rfl, ?_, ?_⟩
  · intro cfg r outcomes
    show votes_yes (verify_thr cfg r) (outcomes.map pass_of) = _
    exact votes_yes_map_pass_of (verify_thr cfg r) outcomes
  · intro cfg r outcomes
    show decide (((votes_yes (verify_thr cfg r) (outcomes.map pass_of) : Int)) ≥
      consensus_req cfg r) = true ↔ _
    rw [decide_eq_true_eq]
    exact Iff.rfl
  · intro cfg oracle parts expot r hc hr hfail hkey hnone
    simp only [verification_stage]
    rw [if_pos hc]
    refine ⟨_, rfl, ?_⟩
    obtain ⟨t, ht, ht1, ht2⟩ := verif_split_dropped_of_failed cfg oracle parts r hr hfail
    have htf : t ∈ (verif_split cfg oracle parts).2.filter
        (fun t' => decide (key_for_rec t'.1 ∉ (verif_split cfg oracle parts).1.map key_for_rec)) := by
      refine List.mem_filter.mpr ⟨ht, ?_⟩
      rw [ht1]
      simpa using hkey
    have hproc : demote_process t ∈ ((verif_split cfg oracle parts).2.filter
        (fun t' => decide (key_for_rec t'.1 ∉ (verif_split cfg oracle parts).1.map key_for_rec))).map
          demote_process :=
      List.mem_map_of_mem demote_process htf
    have hkeyrec : key_for_rec (demote_process t) = key_for_rec r := by
      show key_for_rec t.1 = key_for_rec r
      rw [ht1]
    set A := ((expot.getD []).filter
      (fun pp => decide (key_for_rec pp ∉ (verif_split cfg oracle parts).1.map key_for_rec)))
    set B := ((verif_split cfg oracle parts).2.filter
      (fun t' => decide (key_for_rec t'.1 ∉ (verif_split cfg oracle parts).1.map key_for_rec))).map
        demote_process
    have hkmem : key_for_rec r ∈ (A ++ B).map key_for_rec :=
      List.mem_map.mpr ⟨demote_process t, List.mem_append_right A hproc, hkeyrec⟩
    obtain ⟨e, he_last, he_mem⟩ := dedup_last_covers (A ++ B) (key_for_rec r) hkmem
    have hBne : B.filter (fun r' => key_for_rec r' = key_for_rec r) ≠ [] := by
      intro h
      have hmem : demote_process t ∈ B.filter (fun r' => key_for_rec r' = key_for_rec r) :=
        List.mem_filter.mpr ⟨hproc, by simp [hkeyrec]⟩
      rw [h] at hmem
      exact absurd hmem (List.not_mem_nil _)
    rw [List.filter_append, List.getLast?_append] at he_last
    obtain ⟨b, hb⟩ := Option.isSome_iff_exists.mp (List.getLast?_isSome.mpr hBne)
    rw [hb] at he_last
    have hbe : b = e := by
      simpa [Option.or] using he_last
    subst hbe
    have hbmem := List.mem_of_getLast?_eq_some hb
    rcases List.mem_filter.mp hbmem with ⟨hbB, hbkey⟩
    rcases List.mem_map.mp hbB with ⟨t', ht'f, ht'e⟩
    rcases List.mem_filter.mp ht'f with ⟨ht'd, _⟩
    have ht'p : t'.1 ∈ parts := verif_split_dropped_mem cfg oracle parts t' ht'd
    have ht'none : t'.1.potential_reason = none := hnone t'.1 ht'p
    refine ⟨b, he_mem, by simpa using hbkey, ?_, ?_⟩
    · rw [← ht'e]
      show some (t'.1.potential_reason.getD "verification_failed") = some "verification_failed"
      rw [ht'none]
      rfl
    · rw [← ht'e]
      rfl

def c4cfg : Config :=
  ⟨⟨2, 5, by decide, by decide⟩, 1, 1, 1, 1, true,
    ⟨1, 2, by decide, by decide⟩, ⟨1, 2, by decide, by decide⟩, ⟨1, 2, by decide, by decide⟩,
    2, 2, 1⟩
def c4pA : PRec := ⟨⟨"hood", "front", "", some "minor", some "a", none, none, none⟩, some 2, none, none⟩
def c4pB : PRec := ⟨⟨"hood", "front", "", some "minor", some "b", none, none, none⟩, some 2, none, none⟩
def c4oracle : PRec → List PassOutcome := fun r =>
  if r = c4pA then [.err, .err]
  else [.ok true ⟨1, 1, by decide, by decide⟩, .ok true ⟨1, 1, by decide, by decide⟩]

/-- C4 counterexample: two parts share the key `("hood","front")`; one
fails verification (both passes error out) while the other passes.  In
comprehensive mode the failing part is NOT demoted to `potential_parts`
(the result is `some []`): the demotion loop skips dropped parts whose key
was kept. -/
theorem C4_counterexample :
    c4cfg.comprehensiveMode = true ∧
    (verify_one c4cfg c4pA (c4oracle c4pA)).1 = false ∧
    (verification_stage c4cfg c4oracle [c4pA, c4pB] none).2 = some [] :=
  ⟨rfl, rfl, rfl⟩

/-- Witness for C4: a lone part whose two verification passes both fail
closed is demoted with reason `verification_failed` and evidence
attached. -/
theorem C4_witness :
    ∃ l, (verification_stage c4cfg c4oracle [c4pA] none).2 = some l ∧
      ∃ e ∈ l, key_for_rec e = key_for_rec c4pA ∧
        e.potential_reason = some "verification_failed" ∧ e.verify.isSome = true :=
  C4_verification_decision.2.2.2 c4cfg c4oracle [c4pA] none c4pA rfl
    (List.mem_cons_self _ _) (by decide) (by decide) (by decide)

/-! ## C10: image-set fingerprint -/

open DamageReport
set_option maxHeartbeats 1000000

lemma insert_le_perm {α : Type} (le : α → α → Bool) (x : α) (l : List α) :
    (insert_le le x l).Perm (x :: l) := by
  induction l with
  | nil => exact List.Perm.refl _
  | cons y ys ih =>
    unfold insert_le
    by_cases h : le x y
    · rw [if_pos h]
    · rw [if_neg h]
      exact (ih.cons y).trans (List.Perm.swap x y ys)

lemma sort_stable_perm {α : Type} (le : α → α → Bool) (l : List α) :
    (sort_stable le l).Perm l := by
  induction l with
  | nil => exact List.Perm.refl _
  | cons x xs ih =>
    unfold sort_stable
    exact (insert_le_perm le x (sort_stable le xs)).trans (ih.cons x)

lemma mem_sort_stable {α : Type} (le : α → α → Bool) (l : List α) (x : α) :
    x ∈ sort_stable le l ↔ x ∈ l :=
  (sort_stable_perm le l).mem_iff

lemma insert_le_pairwise {α : Type} (le : α → α → Bool)
    (htot : ∀ a b, le a b = true ∨ le b a = true)
    (htrans : ∀ a b c, le a b = true → le b c = true → le a c = true)
    (x : α) (l : List α) (h : l.Pairwise (fun a b => le a b = true)) :
    (insert_le le x l).Pairwise (fun a b => le a b = true) := by
  induction l with
  | nil => simp [insert_le]
  | cons y ys ih =>
    rcases List.pairwise_cons.mp h with ⟨hy, hys⟩
    unfold insert_le
    by_cases hxy : le x y
    · rw [if_pos hxy]
      refine List.pairwise_cons.mpr ⟨?_, h⟩
      intro b hb
      rcases List.mem_cons.mp hb with rfl | hb2
      · exact hxy
      · exact htrans x y b hxy (hy b hb2)
    · rw [if_neg hxy]
      refine List.pairwise_cons.mpr ⟨?_, ih hys⟩
      intro b hb
      rcases List.mem_cons.mp ((insert_le_perm le x ys).mem_iff.mp hb) with heq | hb2
      · rw [heq]
        rcases htot x y with h1 | h1
        · exact absurd h1 hxy
        · exact h1
      · exact hy b hb2

lemma sort_stable_pairwise {α : Type} (le : α → α → Bool)
    (htot : ∀ a b, le a b = true ∨ le b a = true)
    (htrans : ∀ a b c, le a b = true → le b c = true → le a c = true)
    (l : List α) : (sort_stable le l).Pairwise (fun a b => le a b = true) := by
  induction l with
  | nil => exact List.Pairwise.nil
  | cons x xs ih =>
    unfold sort_stable
    exact insert_le_pairwise le htot htrans x (sort_stable le xs) ih

lemma img_name_le_iff (a b : ImgFile) :
    img_name_le a b = true ↔ a.name < b.name ∨ a.name = b.name := by
  simp [img_name_le, Bool.or_eq_true, str_lt_eq_true_iff, beq_iff_eq]

lemma img_name_le_total (a b : ImgFile) :
    img_name_le a b = true ∨ img_name_le b a = true := by
  rcases lt_trichotomy a.name b.name with h | h | h
  · exact Or.inl ((img_name_le_iff a b).mpr (Or.inl h))
  · exact Or.inl ((img_name_le_iff a b).mpr (Or.inr h))
  · exact Or.inr ((img_name_le_iff b a).mpr (Or.inl h))

lemma img_name_le_trans (a b c : ImgFile)
    (h1 : img_name_le a b = true) (h2 : img_name_le b c = true) :
    img_name_le a c = true := by
  rw [img_name_le_iff] at h1 h2 ⊢
  rcases h1 with h1 | h1 <;> rcases h2 with h2 | h2
  · exact Or.inl (lt_trans h1 h2)
  · exact Or.inl (h2 ▸ h1)
  · exact Or.inl (h1 ▸ h2)
  · exact Or.inr (h1.trans h2)

lemma sort_stable_map_commute {α β : Type} (f : α → β) (le : α → α → Bool)
    (le' : β → β → Bool) (hf : ∀ a b, le a b = le' (f a) (f b)) :
    ∀ l : List α, (sort_stable le l).map f = sort_stable le' (l.map f) := by
  have hins : ∀ (x : α) (l : List α),
      (insert_le le x l).map f = insert_le le' (f x) (l.map f) := by
    intro x l
    induction l with
    | nil => rfl
    | cons y ys ih =>
      simp only [List.map_cons, insert_le]
      by_cases h : le x y = true
      · have h2 : le' (f x) (f y) = true := by rw [← hf]; exact h
        rw [if_pos h, if_pos h2]
        simp
      · have h2 : ¬ le' (f x) (f y) = true := by rw [← hf]; exact h
        rw [if_neg h, if_neg h2]
        simp [ih]
  intro l
  induction l with
  | nil => rfl
  | cons x xs ih =>
    show (insert_le le x (sort_stable le xs)).map f =
      insert_le le' (f x) (sort_stable le' (xs.map f))
    rw [hins, ih]

lemma fingerprint_stream_eq_pair_fold (l : List ImgFile) :
    fingerprint_stream l =
      ((sort_stable img_name_le l).map (fun i => (i.name, i.size))).foldl
        (fun acc q => acc ++ q.1 ++ toString q.2) "" := by
  unfold fingerprint_stream
  rw [List.foldl_map]

/-- C10: The fingerprint stream hashed by _fingerprint_images depends only on the
multiset of (name, size) pairs sorted by name: (a) permuting the input image list
does not change the stream when image names are distinct, and (b) two lists with
identical (name, size) sequences produce identical streams regardless of image
contents.  In particular the fingerprint is NOT a content fingerprint: file bytes
are never hashed. -/
theorem C10_fingerprint_properties :
    (∀ l1 l2 : List ImgFile, l1.Perm l2 → (l1.map (fun i => i.name)).Nodup →
      fingerprint_stream l1 = fingerprint_stream l2) ∧
    (∀ l1 l2 : List ImgFile,
      l1.map (fun i => (i.name, i.size)) = l2.map (fun i => (i.name, i.size)) →
      fingerprint_stream l1 = fingerprint_stream l2) := by
  constructor
  · intro l1 l2 hperm hnd
    have hsortperm : (sort_stable img_name_le l1).Perm (sort_stable img_name_le l2) :=
      ((sort_stable_perm img_name_le l1).trans hperm).trans
        (sort_stable_perm img_name_le l2).symm
    have hs1 := sort_stable_pairwise img_name_le img_name_le_total img_name_le_trans l1
    have hs2 := sort_stable_pairwise img_name_le img_name_le_total img_name_le_trans l2
    have hnd1 : ((sort_stable img_name_le l1).map (fun i => i.name)).Nodup :=
      (((sort_stable_perm img_name_le l1).map (fun i => i.name)).nodup_iff).mpr hnd
    have hnd2 : ((sort_stable img_name_le l2).map (fun i => i.name)).Nodup := by
      refine (((sort_stable_perm img_name_le l2).map (fun i => i.name)).nodup_iff).mpr ?_
      exact ((hperm.map (fun i => i.name)).nodup_iff).mp hnd
    have hstrict : ∀ (l : List ImgFile),
        l.Pairwise (fun a b => img_name_le a b = true) →
        l.Pairwise (fun a b => a.name ≠ b.name) →
        l.Pairwise (fun a b => a.name < b.name) := by
      intro l hle hne
      refine (hle.and hne).imp (fun hab => ?_)
      obtain ⟨h1, h2⟩ := hab
      rcases (img_name_le_iff _ _).mp h1 with h | h
      · exact h
      · exact absurd h h2
    haveI : IsAntisymm ImgFile (fun a b => a.name < b.name) :=
      ⟨fun a b h1 h2 => absurd h1 (asymm h2)⟩
    have heq : sort_stable img_name_le l1 = sort_stable img_name_le l2 :=
      List.eq_of_perm_of_sorted hsortperm
        (hstrict _ hs1 (List.pairwise_map.mp hnd1))
        (hstrict _ hs2 (List.pairwise_map.mp hnd2))
    unfold fingerprint_stream
    rw [heq]
  · intro l1 l2 hns
    rw [fingerprint_stream_eq_pair_fold, fingerprint_stream_eq_pair_fold,
      sort_stable_map_commute (fun i : ImgFile => (i.name, i.size)) img_name_le
        (fun a b => str_lt a.1 b.1 || a.1 == b.1) (fun a b => rfl),
      sort_stable_map_commute (fun i : ImgFile => (i.name, i.size)) img_name_le
        (fun a b => str_lt a.1 b.1 || a.1 == b.1) (fun a b => rfl),
      hns]

/-- C10 counterexample: two image sets with identical names and sizes but different
contents share a fingerprint stream, and with duplicate names the stream is
order-dependent. -/
theorem C10_counterexample :
    (fingerprint_stream [⟨"a.jpg", 10, [1]⟩] = fingerprint_stream [⟨"a.jpg", 10, [2]⟩] ∧
      (⟨"a.jpg", 10, [1]⟩ : ImgFile) ≠ ⟨"a.jpg", 10, [2]⟩) ∧
    (([⟨"a.jpg", 1, []⟩, ⟨"a.jpg", 2, []⟩] : List ImgFile).Perm
        [⟨"a.jpg", 2, []⟩, ⟨"a.jpg", 1, []⟩] ∧
      fingerprint_stream [⟨"a.jpg", 1, []⟩, ⟨"a.jpg", 2, []⟩] ≠
        fingerprint_stream [⟨"a.jpg", 2, []⟩, ⟨"a.jpg", 1, []⟩]) := by
  refine ⟨⟨rfl, by decide⟩, ⟨List.Perm.swap _ _ _, by decide⟩⟩

/-- C10 witness: concrete instantiation of part (b) of the theorem. -/
theorem C10_witness :
    fingerprint_stream [⟨"b.jpg", 3, [7]⟩, ⟨"a.jpg", 10, [4]⟩] =
      fingerprint_stream [⟨"b.jpg", 3, [6]⟩, ⟨"a.jpg", 10, [5]⟩] :=
  C10_fingerprint_properties.2 [⟨"b.jpg", 3, [7]⟩, ⟨"a.jpg", 10, [4]⟩]
    [⟨"b.jpg", 3, [6]⟩, ⟨"a.jpg", 10, [5]⟩] (by decide)

/-! ## C1: persistent superset monotonicity -/


lemma lookup_entry_cons (kv : Key × SEntry) (tl : SMap) (k : Key) :
    lookup_entry (kv :: tl) k = if kv.1 = k then some kv.2 else lookup_entry tl k := by
  by_cases h : kv.1 = k
  · rw [if_pos h]
    unfold lookup_entry
    rw [List.find?_cons_of_pos _ (by simpa using h)]
    rfl
  · rw [if_neg h]
    unfold lookup_entry
    rw [List.find?_cons_of_neg _ (by simpa using h)]

lemma lookup_entry_append_none (m m' : SMap) (k : Key) :
    lookup_entry m k = none → lookup_entry (m ++ m') k = lookup_entry m' k := by
  induction m with
  | nil => intro _; rfl
  | cons kv tl ih =>
    intro h
    rw [lookup_entry_cons] at h
    by_cases hk : kv.1 = k
    · rw [if_pos hk] at h; exact absurd h (by simp)
    · rw [if_neg hk] at h
      rw [List.cons_append, lookup_entry_cons, if_neg hk]
      exact ih h

lemma lookup_entry_map_update (m : SMap) (k : Key) (e : SEntry) (k' : Key)
    (h : k' ≠ k) :
    lookup_entry (m.map (fun kv => if kv.1 = k then (kv.1, e) else kv)) k' =
      lookup_entry m k' := by
  induction m with
  | nil => rfl
  | cons kv tl ih =>
    rw [List.map_cons]
    by_cases hk : kv.1 = k
    · rw [if_pos hk, lookup_entry_cons, lookup_entry_cons]
      have hne : kv.1 ≠ k' := by rw [hk]; exact fun hh => h hh.symm
      rw [if_neg hne, if_neg hne]
      exact ih
    · rw [if_neg hk, lookup_entry_cons, lookup_entry_cons]
      by_cases hk' : kv.1 = k'
      · rw [if_pos hk', if_pos hk']
      · rw [if_neg hk', if_neg hk']
        exact ih

lemma lookup_entry_append_single (m : SMap) (k : Key) (e : SEntry) (k' : Key)
    (h : k' ≠ k) :
    lookup_entry (m ++ [(k, e)]) k' = lookup_entry m k' := by
  induction m with
  | nil =>
    rw [List.nil_append, lookup_entry_cons, if_neg (fun hh => h hh.symm)]
  | cons kv tl ih =>
    rw [List.cons_append, lookup_entry_cons, lookup_entry_cons]
    by_cases hk : kv.1 = k'
    · rw [if_pos hk, if_pos hk]
    · rw [if_neg hk, if_neg hk]
      exact ih

lemma set_entry_map_lookup (m : SMap) (k : Key) (e : SEntry) :
    (m.find? (fun kv => kv.1 == k)).isSome = true →
    lookup_entry (m.map (fun kv => if kv.1 = k then (kv.1, e) else kv)) k = some e := by
  induction m with
  | nil => intro h; simp at h
  | cons kv tl ih =>
    intro h
    rw [List.map_cons]
    by_cases hk : kv.1 = k
    · rw [if_pos hk, lookup_entry_cons, if_pos hk]
    · rw [if_neg hk, lookup_entry_cons, if_neg hk]
      apply ih
      rwa [List.find?_cons_of_neg _ (by simpa using hk)] at h

lemma set_entry_lookup_self (m : SMap) (k : Key) (e : SEntry) :
    lookup_entry (set_entry m k e) k = some e := by
  unfold set_entry
  by_cases h : (m.find? (fun kv => kv.1 == k)).isSome = true
  · rw [if_pos h]
    exact set_entry_map_lookup m k e h
  · rw [if_neg h]
    have hn : lookup_entry m k = none := by
      unfold lookup_entry
      rw [Option.not_isSome_iff_eq_none.mp h]
      rfl
    rw [lookup_entry_append_none m [(k, e)] k hn, lookup_entry_cons, if_pos rfl]

lemma set_entry_lookup_other (m : SMap) (k : Key) (e : SEntry) (k' : Key)
    (h : k' ≠ k) :
    lookup_entry (set_entry m k e) k' = lookup_entry m k' := by
  unfold set_entry
  by_cases hf : (m.find? (fun kv => kv.1 == k)).isSome = true
  · rw [if_pos hf]
    exact lookup_entry_map_update m k e k' h
  · rw [if_neg hf]
    exact lookup_entry_append_single m k e k' h

lemma set_entry_of_lookup_none (m : SMap) (k : Key) (e : SEntry)
    (h : lookup_entry m k = none) : set_entry m k e = m ++ [(k, e)] := by
  unfold set_entry
  rw [if_neg]
  unfold lookup_entry at h
  rw [Option.map_eq_none'.mp h]
  simp

lemma mem_of_lookup_entry (m : SMap) (k : Key) (e : SEntry)
    (h : lookup_entry m k = some e) : (k, e) ∈ m := by
  unfold lookup_entry at h
  obtain ⟨kv, hfind, hv⟩ := Option.map_eq_some'.mp h
  have hmem := List.mem_of_find?_eq_some hfind
  have hk : kv.1 = k := by simpa using List.find?_some hfind
  have hkv : kv = (k, e) := by
    cases kv
    cases hk
    cases hv
    rfl
  rw [← hkv]
  exact hmem

lemma lookup_entry_of_mem_nodup (m : SMap) (k : Key) (e : SEntry) :
    (m.map Prod.fst).Nodup → (k, e) ∈ m → lookup_entry m k = some e := by
  induction m with
  | nil => intro _ h; cases h
  | cons kv tl ih =>
    intro hnd hmem
    rw [List.map_cons, List.nodup_cons] at hnd
    rw [lookup_entry_cons]
    rcases List.mem_cons.mp hmem with heq | hmem2
    · rw [← heq]
      simp
    · have hk : kv.1 ≠ k := by
        intro hc
        have hin : k ∈ tl.map Prod.fst := List.mem_map_of_mem Prod.fst hmem2
        exact hnd.1 (hc ▸ hin)
      rw [if_neg hk]
      exact ih hnd.2 hmem2

lemma lookup_accumulate_part (m : SMap) (r : PRec) (k : Key) (e : SEntry)
    (h : lookup_entry m k = some e) :
    ∃ e', lookup_entry (accumulate_part m r) k = some e' ∧ e.count ≤ e'.count := by
  simp only [accumulate_part]
  by_cases hk : k = key_for_rec r
  · subst hk
    refine ⟨_, set_entry_lookup_self _ _ _, ?_⟩
    rw [h]
    simp only [Option.map_some', Option.getD_some]
    omega
  · exact ⟨e, by rw [set_entry_lookup_other _ _ _ _ hk]; exact h, le_refl _⟩

lemma lookup_accumulate_parts (m : SMap) (rs : List PRec) (k : Key) (e : SEntry) :
    lookup_entry m k = some e →
    ∃ e', lookup_entry (accumulate_parts m rs) k = some e' ∧ e.count ≤ e'.count := by
  induction rs generalizing m e with
  | nil => intro h; exact ⟨e, h, le_refl _⟩
  | cons r rs ih =>
    intro h
    obtain ⟨e1, h1, hle1⟩ := lookup_accumulate_part m r k e h
    obtain ⟨e2, h2, hle2⟩ := ih (accumulate_part m r) e1 h1
    exact ⟨e2, h2, le_trans hle1 hle2⟩

lemma superset_output_keys_mono (ms : Int) (m : SMap) (rs : List PRec)
    (hnd : (m.map Prod.fst).Nodup) (k : Key)
    (hk : k ∈ superset_output_keys ms m) :
    k ∈ superset_output_keys ms (accumulate_parts m rs) := by
  unfold superset_output_keys superset_output at hk ⊢
  obtain ⟨kv, hkv, hfst⟩ := List.mem_map.mp hk
  have hkv2 := (mem_sort_stable superset_le _ kv).mp hkv
  have hmem := List.mem_filter.mp hkv2
  have hcount : kv.2.count ≥ max 1 ms := of_decide_eq_true hmem.2
  have hlook : lookup_entry m kv.1 = some kv.2 :=
    lookup_entry_of_mem_nodup m kv.1 kv.2 hnd hmem.1
  obtain ⟨e', h1, h2⟩ := lookup_accumulate_parts m rs kv.1 kv.2 hlook
  have hmem' : (kv.1, e') ∈ accumulate_parts m rs := mem_of_lookup_entry _ _ _ h1
  refine List.mem_map.mpr ⟨(kv.1, e'), ?_, hfst⟩
  refine (mem_sort_stable superset_le _ _).mpr (List.mem_filter.mpr ⟨hmem', ?_⟩)
  exact decide_eq_true (le_trans hcount h2)

lemma prefer_part_base_none (r : PRec) : prefer_part r none = r := rfl

lemma load_save_aux (m : SMap) :
    ∀ acc : SMap,
    (∀ kv ∈ m, ∃ p, kv.2.part = some p ∧ canonicalize_rec p = p ∧
      key_for_rec p = kv.1) →
    (m.map Prod.fst).Nodup →
    (∀ kv ∈ m, lookup_entry acc kv.1 = none) →
    (save_superset m).foldl load_item acc = acc ++ m := by
  induction m with
  | nil => intro acc _ _ _; simp [save_superset]
  | cons kv tl ih =>
    intro acc h1 hnd hdisj
    obtain ⟨p, hp, hcanon, hkey⟩ := h1 kv (List.mem_cons_self _ _)
    rw [List.map_cons, List.nodup_cons] at hnd
    have hsave : save_superset (kv :: tl) =
        ({ name := kv.1.1, location := kv.1.2,
           category := pyNorm ((kv.2.part.map (fun r => r.part.category)).getD ""),
           count := kv.2.count, part := kv.2.part } : SavedItem) :: save_superset tl := rfl
    have hstep : load_item acc
        ({ name := kv.1.1, location := kv.1.2,
           category := pyNorm ((kv.2.part.map (fun r => r.part.category)).getD ""),
           count := kv.2.count, part := kv.2.part } : SavedItem) = acc ++ [kv] := by
      simp only [load_item, hp, hcanon, hkey]
      rw [set_entry_of_lookup_none _ _ _ (hdisj kv (List.mem_cons_self _ _)),
        hdisj kv (List.mem_cons_self _ _)]
      obtain ⟨k1, e1⟩ := kv
      obtain ⟨c1, pp1⟩ := e1
      simp only at hp
      rw [hp]
      simp [prefer_part_base_none]
    have hdisj2 : ∀ kv' ∈ tl, lookup_entry (acc ++ [kv]) kv'.1 = none := by
      intro kv' hm
      have hne : kv'.1 ≠ kv.1 := by
        intro hc
        exact hnd.1 (hc ▸ List.mem_map_of_mem Prod.fst hm)
      rw [lookup_entry_append_none acc [kv] kv'.1 (hdisj kv' (List.mem_cons_of_mem _ hm)),
        lookup_entry_cons, if_neg (fun hh => hne hh.symm)]
      rfl
    have hrec := ih (acc ++ [kv]) (fun kv' hm => h1 kv' (List.mem_cons_of_mem _ hm))
      hnd.2 hdisj2
    rw [hsave, List.foldl_cons, hstep, hrec]
    simp

lemma load_save_roundtrip (m : SMap)
    (h1 : ∀ kv ∈ m, ∃ p, kv.2.part = some p ∧ canonicalize_rec p = p ∧
      key_for_rec p = kv.1)
    (hnd : (m.map Prod.fst).Nodup) :
    load_superset (save_superset m) = m := by
  have h := load_save_aux m [] h1 hnd (fun kv _ => rfl)
  simpa [load_superset] using h

/-- C1: Within one invocation the superset accumulation is monotone: (i) every
key present in the in-memory map stays present after accumulating any list of
parts and its count never decreases, and (ii) for any minSupport every key of
the thresholded, sorted output list is still in the output list after further
accumulation (keys assumed unique, as in a Python dict).  (iii) A save/load
round trip is the identity provided every stored part is a canonicalization
fixpoint whose canonical key matches its map key.  The cross-invocation claim
needs (iii); it fails for reachable maps whose stored parts are not
canonicalization fixpoints (see the counterexample). -/
theorem C1_superset_monotonicity :
    (∀ (m : SMap) (rs : List PRec) (k : Key) (e : SEntry),
        lookup_entry m k = some e →
        ∃ e', lookup_entry (accumulate_parts m rs) k = some e' ∧
          e.count ≤ e'.count) ∧
    (∀ (ms : Int) (m : SMap) (rs : List PRec) (k : Key),
        (m.map Prod.fst).Nodup →
        k ∈ superset_output_keys ms m →
        k ∈ superset_output_keys ms (accumulate_parts m rs)) ∧
    (∀ m : SMap,
        (∀ kv ∈ m, ∃ p, kv.2.part = some p ∧ canonicalize_rec p = p ∧
          key_for_rec p = kv.1) →
        (m.map Prod.fst).Nodup →
        load_superset (save_superset m) = m) :=
  ⟨lookup_accumulate_parts,
   fun ms m rs k hnd hk => superset_output_keys_mono ms m rs hnd k hk,
   fun m h1 hnd => load_save_roundtrip m h1 hnd⟩

def c1raw : PRec :=
  ⟨⟨"hood", "xback endx", "exterior", some "severe", some "dent", none, none, none⟩,
    none, none, none⟩

def c1can : PRec :=
  ⟨⟨"hood", "xrear endx", "exterior", some "severe", some "dent", none, none, none⟩,
    none, none, none⟩

def c1can2 : PRec :=
  ⟨⟨"hood", "xrearx", "exterior", some "severe", some "dent", none, none, none⟩,
    none, none, none⟩

def c1m : SMap := accumulate_parts [] [c1can]

/-- C1 counterexample: a part whose canonical location "xrear endx" is not a
canonicalization fixpoint is accumulated under key ("hood", "xrear endx") and
appears in the minSupport-1 output, but after a save/load round trip (load
re-canonicalizes every stored part) that key is gone from the persisted map
and from the output list, so a confirmed key IS lost across invocations. -/
theorem C1_counterexample :
    canonicalize_rec c1raw = c1can ∧
    lookup_entry c1m ("hood", "xrear endx") = some ⟨1, some c1can⟩ ∧
    ("hood", "xrear endx") ∈ superset_output_keys 1 c1m ∧
    lookup_entry (load_superset (save_superset c1m)) ("hood", "xrear endx") = none ∧
    ("hood", "xrear endx") ∉ superset_output_keys 1 (load_superset (save_superset c1m)) := by
  have h1 : c1m = [(("hood", "xrear endx"), ⟨1, some c1can⟩)] := rfl
  have h2 : load_superset (save_superset c1m) =
      [(("hood", "xrearx"), ⟨1, some c1can2⟩)] := by
    rw [h1]
    rfl
  refine ⟨rfl, ?_, ?_, ?_, ?_⟩
  · rw [h1]; rfl
  · rw [h1]; decide
  · rw [h2]; rfl
  · rw [h2]; decide

def c1fix : PRec :=
  ⟨⟨"hood", "rear", "exterior", some "severe", some "dent", none, none, none⟩,
    none, none, none⟩

def c1wm : SMap := [(("hood", "rear"), ⟨1, some c1fix⟩)]

/-- C1 witness: concrete instantiation of all three conjuncts on a
singleton map whose stored part is a canonicalization fixpoint. -/
theorem C1_witness :
    (lookup_entry (accumulate_parts c1wm [c1fix]) ("hood", "rear")).isSome = true ∧
    ("hood", "rear") ∈ superset_output_keys 1 (accumulate_parts c1wm [c1fix]) ∧
    load_superset (save_superset c1wm) = c1wm := by
  refine ⟨?_, ?_, ?_⟩
  · obtain ⟨e', he, _⟩ :=
      C1_superset_monotonicity.1 c1wm [c1fix] ("hood", "rear") ⟨1, some c1fix⟩ rfl
    rw [he]
    rfl
  · exact C1_superset_monotonicity.2.1 1 c1wm [c1fix] ("hood", "rear") (by decide) (by decide)
  · exact C1_superset_monotonicity.2.2 c1wm
      (by
        intro kv hkv
        rw [c1wm, List.mem_singleton] at hkv
        subst hkv
        exact ⟨c1fix, rfl, rfl, rfl⟩)
      (by decide)

end DamageReport
